import Mathlib

/-!
Verification model of the `ethstream` block-tree engine
(`src/EthStream.ts`, `src/EventEmitter.ts`).

The block tree (`addedBlocksByHash`, a JS `Map` iterated in insertion order)
is modelled as a `List Block`; JS numbers that carry block numbers and depths
are modelled as `Int`.  Events (`add`, `confirm`, `rollback`) are collected in
lists in emission order.
-/

namespace Ethstream

/-- A block record, as in `class Block` of `EthStream.ts`: identity fields
`hash`, `parentHash`, `number`, the mutable `childDepth`, and `logsBloom`.
`number` and `childDepth` are JS numbers used integrally, modelled as `Int`. -/
structure Block where
  hash : String
  parentHash : String
  number : Int
  childDepth : Int
  logsBloom : String
deriving Repr, DecidableEq

/-- Events emitted by the engine through its `EventEmitter` base:
`emit("add", b)`, `emit("confirm", b)`, `emit("rollback", b)`. -/
inductive Event where
  | add (b : Block)
  | confirm (b : Block)
  | rollback (b : Block)
deriving Repr, DecidableEq

/-- The two tuning fields of `EthStream` used by the tree engine. -/
structure Config where
  numConfirmations : Int
  streamSize : Int
deriving Repr, DecidableEq

/-! ## The block tree: a JS `Map` in insertion order -/

/-- `addedBlocksByHash.get(h)`. -/
def treeGet (t : List Block) (h : String) : Option Block :=
  t.find? (fun b => b.hash == h)

/-- `addedBlocksByHash.has(h)` / truthiness of `get`. -/
def treeHas (t : List Block) (h : String) : Bool :=
  t.any (fun b => b.hash == h)

/-- `addedBlocksByHash.set(b.hash, b)`: replace in place if the key is
present (JS `Map` keeps the original position), otherwise append. -/
def treeSet (t : List Block) (b : Block) : List Block :=
  if t.any (fun x => x.hash == b.hash) then
    t.map (fun x => if x.hash == b.hash then b else x)
  else t ++ [b]

/-- `addedBlocksByHash.delete(h)`. -/
def treeDelete (t : List Block) (h : String) : List Block :=
  t.filter (fun b => b.hash != h)

/-- The `Map` invariant: keys are pairwise distinct. -/
def nodupKeys (t : List Block) : Prop :=
  (t.map (fun b => b.hash)).Nodup

instance (t : List Block) : Decidable (nodupKeys t) := by
  unfold nodupKeys; infer_instance

/-- The `maxBlockNumber` recomputation loop at the top of
`flushFlushableBlocks` (initial value `0`, one pass over the tree). -/
def treeMaxNumber (t : List Block) : Int :=
  t.foldl (fun m b => if b.number > m then b.number else m) 0

/-! ## The pruner (`flushFlushableBlocks`, lines 295-317) -/

/-- The removal condition of the pruner:
`block.number < blockNumberToFlush || block.number + block.childDepth < blockNumberToRollback`. -/
def flushable (blockNumberToFlush blockNumberToRollback : Int) (b : Block) : Bool :=
  decide (b.number < blockNumberToFlush) ||
    decide (b.number + b.childDepth < blockNumberToRollback)

/-- The pruner's loop: iterate over the snapshot list taken at entry
(`Array.from(this.addedBlocksByHash.values())`), deleting matching blocks
from the live map and emitting `rollback` for those whose `childDepth` is
below `depthToRollback` at the moment of removal. -/
def flushLoop (depthToRollback blockNumberToFlush blockNumberToRollback : Int) :
    List Block → List Block → List Block × List Event
  | [], t => (t, [])
  | b :: rest, t =>
    if flushable blockNumberToFlush blockNumberToRollback b then
      let t1 := treeDelete t b.hash
      let out := flushLoop depthToRollback blockNumberToFlush blockNumberToRollback rest t1
      (out.1, (if b.childDepth < depthToRollback then [Event.rollback b] else []) ++ out.2)
    else
      flushLoop depthToRollback blockNumberToFlush blockNumberToRollback rest t

/-- `flushFlushableBlocks` (lines 295-317): recompute `maxBlockNumber` over the
tree, then remove every block below the flush horizon or whose
`number + childDepth` is below the rollback horizon, emitting `rollback`
for removed blocks that are not yet confirmed. -/
def flushFlushableBlocks (cfg : Config) (t : List Block) : List Block × List Event :=
  let maxBlockNumber := treeMaxNumber t
  let depthToRollback := cfg.numConfirmations
  let blockNumberToFlush := maxBlockNumber - cfg.streamSize
  let blockNumberToRollback := maxBlockNumber - depthToRollback
  flushLoop depthToRollback blockNumberToFlush blockNumberToRollback t t

/-! ## Basic lemmas about the tree operations -/

theorem treeGet_hash {t : List Block} {h : String} {x : Block}
    (hx : treeGet t h = some x) : x.hash = h := by
  have := List.find?_some hx
  simpa using this

theorem treeGet_mem {t : List Block} {h : String} {x : Block}
    (hx : treeGet t h = some x) : x ∈ t :=
  List.mem_of_find?_eq_some hx

theorem treeGet_self {t : List Block} {h : String} {x : Block}
    (hx : treeGet t h = some x) : treeGet t x.hash = some x := by
  rw [treeGet_hash hx]; exact hx

theorem treeGet_eq_none_iff {t : List Block} {h : String} :
    treeGet t h = none ↔ ∀ x ∈ t, x.hash ≠ h := by
  unfold treeGet
  rw [List.find?_eq_none]
  constructor
  · intro hall x hx
    have := hall x hx
    simpa using this
  · intro hall x hx
    simpa using hall x hx

theorem treeHas_iff {t : List Block} {h : String} :
    treeHas t h = true ↔ ∃ x ∈ t, x.hash = h := by
  unfold treeHas
  rw [List.any_eq_true]
  constructor
  · rintro ⟨x, hx, hh⟩; exact ⟨x, hx, by simpa using hh⟩
  · rintro ⟨x, hx, hh⟩; exact ⟨x, hx, by simpa using hh⟩

theorem treeHas_false_iff {t : List Block} {h : String} :
    treeHas t h = false ↔ ∀ x ∈ t, x.hash ≠ h := by
  rw [← Bool.not_eq_true, treeHas_iff]
  push_neg
  rfl

theorem treeGet_append_left {t : List Block} {h : String} {x : Block} {l : List Block}
    (hx : treeGet t h = some x) : treeGet (t ++ l) h = some x := by
  unfold treeGet at *
  rw [List.find?_append, hx]
  rfl

theorem treeGet_append_right {t : List Block} {h : String} {l : List Block}
    (hx : treeGet t h = none) : treeGet (t ++ l) h = treeGet l h := by
  unfold treeGet at *
  rw [List.find?_append, hx]
  rfl

theorem mem_treeSet {t : List Block} {b x : Block} (hx : x ∈ treeSet t b) :
    x ∈ t ∨ x = b := by
  unfold treeSet at hx
  split at hx
  · rcases List.mem_map.mp hx with ⟨y, hy, hxy⟩
    by_cases hh : (y.hash == b.hash) = true
    · right
      rw [if_pos hh] at hxy
      exact hxy.symm
    · left
      rw [if_neg hh] at hxy
      exact hxy ▸ hy
  · rcases List.mem_append.mp hx with hmem | hmem
    · exact Or.inl hmem
    · right; simpa using hmem

theorem treeSet_of_absent {t : List Block} {b : Block}
    (hp : t.any (fun x => x.hash == b.hash) = false) :
    treeSet t b = t ++ [b] := by
  unfold treeSet
  rw [if_neg (by simp [hp])]

/-- When the key is already present, `treeSet` keeps the list of keys. -/
theorem treeSet_map_hash {t : List Block} {b : Block}
    (hp : t.any (fun x => x.hash == b.hash) = true) :
    (treeSet t b).map (fun x => x.hash) = t.map (fun x => x.hash) := by
  unfold treeSet
  rw [if_pos hp, List.map_map]
  apply List.map_congr_left
  intro x _
  by_cases hh : (x.hash == b.hash) = true
  · have hxb : x.hash = b.hash := by simpa using hh
    simp [Function.comp, hh, hxb]
  · simp [Function.comp, hh]

theorem find_replace_self {t : List Block} {b : Block}
    (hp : t.any (fun x => x.hash == b.hash) = true) :
    List.find? (fun x => x.hash == b.hash)
      (t.map (fun x => if x.hash == b.hash then b else x)) = some b := by
  induction t with
  | nil => simp at hp
  | cons y ys ih =>
    by_cases hy : (y.hash == b.hash) = true
    · simp only [List.map_cons, if_pos hy]
      rw [List.find?_cons_of_pos _ (by simp)]
    · simp only [List.map_cons, if_neg hy]
      rw [List.find?_cons_of_neg _ (by simpa using hy)]
      apply ih
      have := List.any_eq_true.mp hp
      rcases this with ⟨x, hx, hxb⟩
      rcases List.mem_cons.mp hx with rfl | hmem
      · exact absurd hxb (by simpa using hy)
      · exact List.any_eq_true.mpr ⟨x, hmem, hxb⟩

theorem find_replace_ne {t : List Block} {b : Block} {h : String}
    (hne : h ≠ b.hash) :
    List.find? (fun x => x.hash == h)
      (t.map (fun x => if x.hash == b.hash then b else x)) =
      List.find? (fun x => x.hash == h) t := by
  induction t with
  | nil => simp
  | cons y ys ih =>
    by_cases hy : (y.hash == b.hash) = true
    · have hyb : y.hash = b.hash := by simpa using hy
      simp only [List.map_cons, if_pos hy]
      rw [List.find?_cons_of_neg _ (by simp; exact fun hc => hne hc.symm),
        List.find?_cons_of_neg _ (by simp [hyb]; exact fun hc => hne hc.symm)]
      exact ih
    · simp only [List.map_cons, if_neg hy]
      by_cases hyh : (y.hash == h) = true
      · rw [List.find?_cons_of_pos _ (by exact hyh), List.find?_cons_of_pos _ (by exact hyh)]
      · rw [List.find?_cons_of_neg _ (by simpa using hyh),
          List.find?_cons_of_neg _ (by simpa using hyh)]
        exact ih

theorem treeGet_treeSet_self (t : List Block) (b : Block) :
    treeGet (treeSet t b) b.hash = some b := by
  unfold treeSet treeGet
  split
  · next hp => exact find_replace_self hp
  · next hp =>
    rw [List.find?_append]
    have hnone : List.find? (fun x => x.hash == b.hash) t = none := by
      rw [List.find?_eq_none]
      intro x hx
      have := List.any_eq_true.not.mp hp
      push_neg at this
      simpa using this x hx
    rw [hnone]
    simp

theorem treeGet_treeSet_ne (t : List Block) (b : Block) {h : String}
    (hne : h ≠ b.hash) : treeGet (treeSet t b) h = treeGet t h := by
  unfold treeSet treeGet
  split
  · exact find_replace_ne hne
  · rw [List.find?_append]
    have : List.find? (fun x => x.hash == h) [b] = none := by
      simp
      exact fun hc => hne hc.symm
    rw [this]
    cases List.find? (fun x => x.hash == h) t <;> rfl

theorem nodupKeys_treeSet {t : List Block} {b : Block} (hn : nodupKeys t) :
    nodupKeys (treeSet t b) := by
  by_cases hp : t.any (fun x => x.hash == b.hash) = true
  · unfold nodupKeys
    rw [treeSet_map_hash hp]
    exact hn
  · rw [treeSet_of_absent (by simpa using hp)]
    unfold nodupKeys at *
    rw [List.map_append]
    apply List.Nodup.append hn (by simp)
    intro h1 hmem1 hmem2
    simp only [List.map_cons, List.map_nil, List.mem_singleton] at hmem2
    rcases List.mem_map.mp hmem1 with ⟨x, hx, rfl⟩
    have hall := List.any_eq_true.not.mp hp
    push_neg at hall
    have := hall x hx
    exact this (by simp [hmem2])

/-! ## Lemmas about `treeMaxNumber` -/

theorem foldMax_le_foldMax {t : List Block} {a a' : Int} (h : a ≤ a') :
    t.foldl (fun m b => if b.number > m then b.number else m) a ≤
      t.foldl (fun m b => if b.number > m then b.number else m) a' := by
  induction t generalizing a a' with
  | nil => simpa using h
  | cons y ys ih =>
    simp only [List.foldl_cons]
    apply ih
    split <;> split <;> omega

theorem le_foldMax_init (t : List Block) (a : Int) :
    a ≤ t.foldl (fun m b => if b.number > m then b.number else m) a := by
  induction t generalizing a with
  | nil => simp
  | cons y ys ih =>
    simp only [List.foldl_cons]
    calc a ≤ (if y.number > a then y.number else a) := by split <;> omega
    _ ≤ _ := ih _

theorem le_foldMax_mem {t : List Block} {x : Block} (hx : x ∈ t) (a : Int) :
    x.number ≤ t.foldl (fun m b => if b.number > m then b.number else m) a := by
  induction t generalizing a with
  | nil => simp at hx
  | cons y ys ih =>
    simp only [List.foldl_cons]
    rcases List.mem_cons.mp hx with rfl | hmem
    · calc x.number ≤ (if x.number > a then x.number else a) := by split <;> omega
      _ ≤ _ := le_foldMax_init _ _
    · exact ih hmem _

theorem foldMax_eq_init_or_mem (t : List Block) (a : Int) :
    t.foldl (fun m b => if b.number > m then b.number else m) a = a ∨
      ∃ x ∈ t, t.foldl (fun m b => if b.number > m then b.number else m) a = x.number := by
  induction t generalizing a with
  | nil => left; rfl
  | cons y ys ih =>
    simp only [List.foldl_cons]
    by_cases hy : y.number > a
    · rw [if_pos hy]
      rcases ih y.number with heq | ⟨x, hx, heq⟩
      · exact Or.inr ⟨y, List.mem_cons_self _ _, heq⟩
      · exact Or.inr ⟨x, List.mem_cons_of_mem _ hx, heq⟩
    · rw [if_neg hy]
      rcases ih a with heq | ⟨x, hx, heq⟩
      · exact Or.inl heq
      · exact Or.inr ⟨x, List.mem_cons_of_mem _ hx, heq⟩

theorem treeMaxNumber_nonneg (t : List Block) : 0 ≤ treeMaxNumber t :=
  le_foldMax_init t 0

theorem le_treeMaxNumber {t : List Block} {x : Block} (hx : x ∈ t) :
    x.number ≤ treeMaxNumber t :=
  le_foldMax_mem hx 0

theorem treeMaxNumber_mem {t : List Block} (hne : t ≠ [])
    (hpos : ∀ x ∈ t, 0 ≤ x.number) :
    ∃ x ∈ t, x.number = treeMaxNumber t := by
  rcases foldMax_eq_init_or_mem t 0 with heq | ⟨x, hx, heq⟩
  · rcases List.exists_mem_of_ne_nil t hne with ⟨y, hy⟩
    refine ⟨y, hy, le_antisymm (le_treeMaxNumber hy) ?_⟩
    rw [treeMaxNumber, heq]
    exact hpos y hy
  · exact ⟨x, hx, heq.symm⟩

theorem treeMaxNumber_congr {t t' : List Block}
    (h : t.map (fun b => b.number) = t'.map (fun b => b.number)) :
    treeMaxNumber t = treeMaxNumber t' := by
  unfold treeMaxNumber
  rw [← List.foldl_map (fun b : Block => b.number) (fun m n => if n > m then n else m),
    ← List.foldl_map (fun b : Block => b.number) (fun m n => if n > m then n else m), h]

theorem treeMaxNumber_append_le (t : List Block) (b : Block) :
    treeMaxNumber t ≤ treeMaxNumber (t ++ [b]) := by
  unfold treeMaxNumber
  rw [List.foldl_append]
  simp only [List.foldl_cons, List.foldl_nil]
  split <;> omega

theorem treeMaxNumber_sublist {t t' : List Block} (h : t'.Sublist t) :
    treeMaxNumber t' ≤ treeMaxNumber t := by
  rcases foldMax_eq_init_or_mem t' 0 with heq | ⟨x, hx, heq⟩
  · rw [treeMaxNumber, heq]
    exact treeMaxNumber_nonneg t
  · rw [treeMaxNumber, heq]
    exact le_treeMaxNumber (h.mem hx)

/-! ## Lookup in a filtered tree -/

theorem treeGet_filter {t : List Block} (q : Block → Bool) {h : String} {x : Block}
    (hn : nodupKeys t) (hx : treeGet t h = some x) :
    treeGet (t.filter q) h = if q x then some x else none := by
  unfold treeGet at *
  induction t with
  | nil => simp at hx
  | cons y ys ih =>
    have hn' : nodupKeys ys := by
      unfold nodupKeys at *
      simpa using hn.of_cons
    by_cases hy : (y.hash == h) = true
    · rw [List.find?_cons_of_pos _ (by exact hy)] at hx
      have hxy : y = x := by injection hx
      subst hxy
      have hnone : List.find? (fun b => b.hash == h) (ys.filter q) = none := by
        rw [List.find?_eq_none]
        intro z hz
        have hzmem : z ∈ ys := List.mem_of_mem_filter hz
        unfold nodupKeys at hn
        rw [List.map_cons, List.nodup_cons] at hn
        have : y.hash ∉ ys.map (fun b => b.hash) := hn.1
        simp only [beq_iff_eq]
        intro hzh
        have hyh : y.hash = h := by simpa using hy
        exact this (List.mem_map.mpr ⟨z, hzmem, by rw [hzh, hyh]⟩)
      by_cases hq : q y
      · rw [List.filter_cons_of_pos hq, List.find?_cons_of_pos _ (by exact hy), if_pos hq]
      · rw [List.filter_cons_of_neg (by simpa using hq), hnone, if_neg (by simpa using hq)]
    · rw [List.find?_cons_of_neg _ (by exact hy)] at hx
      by_cases hq : q y
      · rw [List.filter_cons_of_pos hq, List.find?_cons_of_neg _ (by exact hy)]
        exact ih hn' hx
      · rw [List.filter_cons_of_neg (by simpa using hq)]
        exact ih hn' hx

theorem treeGet_filter_none {t : List Block} (q : Block → Bool) {h : String}
    (hx : treeGet t h = none) : treeGet (t.filter q) h = none := by
  unfold treeGet at *
  rw [List.find?_eq_none] at *
  intro x hxm
  exact hx x (List.mem_of_mem_filter hxm)

/-! ## Characterisation of the pruner -/

theorem flushLoop_fst (d f r : Int) (pending t : List Block) :
    (flushLoop d f r pending t).1 =
      t.filter (fun x => !(pending.any (fun b => flushable f r b && b.hash == x.hash))) := by
  induction pending generalizing t with
  | nil => simp [flushLoop]
  | cons b rest ih =>
    by_cases hb : flushable f r b = true
    · rw [flushLoop, if_pos hb]
      simp only
      rw [ih (treeDelete t b.hash)]
      unfold treeDelete
      rw [List.filter_filter]
      apply List.filter_congr
      intro x _
      by_cases hxb : x.hash = b.hash
      · simp [hxb, hb]
      · simp only [List.any_cons, hb, Bool.true_and, Bool.not_or]
        have h1 : (x.hash != b.hash) = true := by simpa using hxb
        have h2 : (b.hash == x.hash) = false := by
          simp only [beq_eq_false_iff_ne, ne_eq]
          exact fun hc => hxb hc.symm
        rw [h1, h2]
        simp
    · rw [flushLoop, if_neg hb]
      rw [ih t]
      apply List.filter_congr
      intro x _
      simp only [List.any_cons, Bool.not_or]
      rw [Bool.eq_false_iff.mpr hb]
      simp

theorem flushLoop_snd (d f r : Int) (pending t : List Block) :
    (flushLoop d f r pending t).2 =
      ((pending.filter (flushable f r)).filter
        (fun b => decide (b.childDepth < d))).map Event.rollback := by
  induction pending generalizing t with
  | nil => simp [flushLoop]
  | cons b rest ih =>
    by_cases hb : flushable f r b = true
    · rw [flushLoop, if_pos hb]
      simp only
      rw [ih (treeDelete t b.hash), List.filter_cons_of_pos hb]
      by_cases hcd : b.childDepth < d
      · rw [if_pos hcd, List.filter_cons_of_pos (by simpa using hcd)]
        simp
      · rw [if_neg hcd, List.filter_cons_of_neg (by simpa using hcd)]
        simp
    · rw [flushLoop, if_neg hb]
      rw [ih t, List.filter_cons_of_neg (by simpa using hb)]

/-- With distinct keys, the pruner's deletions amount to filtering the tree by
the removal condition. -/
theorem flushFlushableBlocks_fst {cfg : Config} {t : List Block} (hn : nodupKeys t) :
    (flushFlushableBlocks cfg t).1 =
      t.filter (fun b => !(flushable (treeMaxNumber t - cfg.streamSize)
        (treeMaxNumber t - cfg.numConfirmations) b)) := by
  unfold flushFlushableBlocks
  rw [flushLoop_fst]
  apply List.filter_congr
  intro x hx
  congr 1
  rw [Bool.eq_iff_iff, List.any_eq_true]
  constructor
  · rintro ⟨b, hb, hcond⟩
    rw [Bool.and_eq_true] at hcond
    have hbx : b = x := by
      unfold nodupKeys at hn
      have := List.inj_on_of_nodup_map hn
      exact this hb hx (by simpa using hcond.2)
    exact hbx ▸ hcond.1
  · intro hx'
    exact ⟨x, hx, by simp [hx']⟩

/-- The pruner's `rollback` events: the removed blocks that are below the
confirmation depth, in tree (insertion) order. -/
theorem flushFlushableBlocks_snd (cfg : Config) (t : List Block) :
    (flushFlushableBlocks cfg t).2 =
      ((t.filter (flushable (treeMaxNumber t - cfg.streamSize)
          (treeMaxNumber t - cfg.numConfirmations))).filter
        (fun b => decide (b.childDepth < cfg.numConfirmations))).map Event.rollback := by
  unfold flushFlushableBlocks
  rw [flushLoop_snd]

/-- The numbers of the blocks carried by the `rollback` events of a list, in
emission order. -/
def rollbackNumbers (evs : List Event) : List Int :=
  evs.filterMap (fun e => match e with
    | Event.rollback b => some b.number
    | _ => none)

theorem rollbackNumbers_map_rollback (l : List Block) :
    rollbackNumbers (l.map Event.rollback) = l.map (fun b => b.number) := by
  induction l with
  | nil => rfl
  | cons b rest ih => simp [rollbackNumbers] at ih ⊢; exact ih

/-! ## Claim C2 -/

/-- C2. After every insertion the pruner removes exactly the blocks `B` with
`B.number < maxBlockNumber - streamSize` or
`B.number + B.childDepth < maxBlockNumber - numConfirmations`, with
`maxBlockNumber` recomputed by iterating the tree (`treeMaxNumber`), and it
emits `rollback B` if and only if `B` is removed and
`B.childDepth < numConfirmations` at the moment of removal. -/
theorem flush_removes_exactly (cfg : Config) (t : List Block) (hn : nodupKeys t) :
    (∀ b, b ∈ (flushFlushableBlocks cfg t).1 ↔
      b ∈ t ∧ ¬(b.number < treeMaxNumber t - cfg.streamSize ∨
        b.number + b.childDepth < treeMaxNumber t - cfg.numConfirmations)) ∧
    (∀ b, Event.rollback b ∈ (flushFlushableBlocks cfg t).2 ↔
      b ∈ t ∧ (b.number < treeMaxNumber t - cfg.streamSize ∨
        b.number + b.childDepth < treeMaxNumber t - cfg.numConfirmations) ∧
      b.childDepth < cfg.numConfirmations) := by
  constructor
  · intro b
    rw [flushFlushableBlocks_fst hn, List.mem_filter]
    unfold flushable
    simp
  · intro b
    rw [flushFlushableBlocks_snd]
    constructor
    · intro hmem
      rcases List.mem_map.mp hmem with ⟨x, hx, hxb⟩
      have hbx : x = b := by injection hxb
      subst hbx
      rcases List.mem_filter.mp hx with ⟨hx1, hx2⟩
      rcases List.mem_filter.mp hx1 with ⟨hx3, hx4⟩
      refine ⟨hx3, ?_, by simpa using hx2⟩
      unfold flushable at hx4
      simpa using hx4
    · rintro ⟨hmem, hcond, hcd⟩
      apply List.mem_map.mpr
      refine ⟨b, ?_, rfl⟩
      apply List.mem_filter.mpr
      refine ⟨List.mem_filter.mpr ⟨hmem, ?_⟩, by simpa using hcd⟩
      unfold flushable
      simpa using hcond

def cfg2 : Config := ⟨5, 12⟩

def tree2 : List Block :=
  [⟨"a", "p", 2, 0, ""⟩, ⟨"b", "a", 3, 1, ""⟩, ⟨"c", "b", 20, 0, ""⟩]

theorem flush_removes_exactly_witness :
    nodupKeys tree2 ∧
    ((⟨"a", "p", 2, 0, ""⟩ : Block) ∈ (flushFlushableBlocks cfg2 tree2).1 ↔
      (⟨"a", "p", 2, 0, ""⟩ : Block) ∈ tree2 ∧
      ¬((2 : Int) < treeMaxNumber tree2 - cfg2.streamSize ∨
        (2 : Int) + 0 < treeMaxNumber tree2 - cfg2.numConfirmations)) :=
  ⟨by decide, (flush_removes_exactly cfg2 tree2 (by decide)).1 _⟩

/-! ## Claim C3 -/

def cfg3 : Config := ⟨5, 12⟩

def tree3 : List Block :=
  [⟨"x", "w", 8, 0, ""⟩, ⟨"y", "v", 5, 0, ""⟩, ⟨"z", "u", 20, 0, ""⟩]

/-- C3, counterexample. The pruner iterates the tree in `Map` insertion order
and never sorts the removal candidates, so one pass over a tree whose
insertion order is not ascending in `number` (reachable, e.g., after
`restoreFromSnapshot` or after orphan branches arrive out of order) emits
`rollback` events in descending `number` order. -/
theorem rollback_ascending_counterexample :
    rollbackNumbers (flushFlushableBlocks cfg3 tree3).2 = [8, 5] ∧
    ¬ (rollbackNumbers (flushFlushableBlocks cfg3 tree3).2).Sorted (· ≤ ·) := by
  constructor
  · rfl
  · intro hs
    have heq : rollbackNumbers (flushFlushableBlocks cfg3 tree3).2 = [8, 5] := rfl
    rw [heq, List.sorted_cons] at hs
    have := hs.1 5 (by simp)
    omega

/-- C3, amended. The `rollback` events of one pruner pass follow the tree's
iteration (insertion) order; in particular, when the retained tree is ordered
by ascending `number`, the `rollback` events of one pass are in ascending
`number` order. The code does not sort the candidate list, so the ascending
guarantee holds only for number-ordered tree states. -/
theorem rollback_order_follows_tree (cfg : Config) (t : List Block)
    (hs : t.Sorted (fun a b => a.number ≤ b.number)) :
    (rollbackNumbers (flushFlushableBlocks cfg t).2).Sorted (· ≤ ·) := by
  rw [flushFlushableBlocks_snd, rollbackNumbers_map_rollback]
  have hsub : ((t.filter (flushable (treeMaxNumber t - cfg.streamSize)
      (treeMaxNumber t - cfg.numConfirmations))).filter
      (fun b => decide (b.childDepth < cfg.numConfirmations))).Sublist t :=
    (List.filter_sublist _).trans (List.filter_sublist _)
  exact List.pairwise_map.mpr (List.Pairwise.sublist hsub hs)

theorem rollback_order_follows_tree_witness :
    tree2.Sorted (fun a b => a.number ≤ b.number) ∧
    (rollbackNumbers (flushFlushableBlocks cfg2 tree2).2).Sorted (· ≤ ·) :=
  ⟨by decide, rollback_order_follows_tree cfg2 tree2 (by decide)⟩

/-! ## Claim C10 -/

def cfg10 : Config := ⟨0, 0⟩

def tree10 : List Block := [⟨"a", "p", -1, 0, ""⟩]

/-- C10, counterexample. A tree state satisfying all the hypotheses the claim
lists (non-empty, `streamSize ≥ 0`, `numConfirmations ≥ 0`, every retained
`childDepth ≥ 0`) but holding a block of negative `number` — constructible,
since `restoreFromSnapshot` trusts snapshot contents — is emptied by one
pruner pass: the recomputed `maxBlockNumber` starts from `0`, so the block
whose number is the tree's maximum is itself below the flush horizon. -/
theorem pruner_keeps_max_counterexample :
    tree10 ≠ [] ∧ 0 ≤ cfg10.streamSize ∧ 0 ≤ cfg10.numConfirmations ∧
    (∀ b ∈ tree10, 0 ≤ b.childDepth) ∧
    (flushFlushableBlocks cfg10 tree10).1 = [] := by
  refine ⟨by decide, by decide, by decide, by decide, ?_⟩
  rfl

/-- C10, amended. For every non-empty tree state with `streamSize ≥ 0`,
`numConfirmations ≥ 0`, every retained `childDepth ≥ 0`, and — as forced by
the counterexample — every block `number ≥ 0`, a pruner pass never removes a
block whose number equals the maximum block number of the tree, so the tree
is still non-empty after the pass. -/
theorem pruner_keeps_max (cfg : Config) (t : List Block) (hn : nodupKeys t)
    (hne : t ≠ []) (hs : 0 ≤ cfg.streamSize) (hc : 0 ≤ cfg.numConfirmations)
    (hcd : ∀ b ∈ t, 0 ≤ b.childDepth) (hnum : ∀ b ∈ t, 0 ≤ b.number) :
    (∀ b ∈ t, b.number = treeMaxNumber t → b ∈ (flushFlushableBlocks cfg t).1) ∧
    (flushFlushableBlocks cfg t).1 ≠ [] := by
  have hkeep : ∀ b ∈ t, b.number = treeMaxNumber t → b ∈ (flushFlushableBlocks cfg t).1 := by
    intro b hb hmax
    rw [(flush_removes_exactly cfg t hn).1 b]
    refine ⟨hb, ?_⟩
    have := hcd b hb
    omega
  refine ⟨hkeep, ?_⟩
  rcases treeMaxNumber_mem hne hnum with ⟨x, hx, hmax⟩
  intro hempty
  have := hkeep x hx hmax
  rw [hempty] at this
  exact List.not_mem_nil x this

theorem pruner_keeps_max_witness :
    nodupKeys tree2 ∧ (flushFlushableBlocks cfg2 tree2).1 ≠ [] :=
  ⟨by decide,
    (pruner_keeps_max cfg2 tree2 (by decide) (by decide) (by decide) (by decide)
      (by decide) (by decide)).2⟩

/-! ## Claim C6: the constructor's configuration check (lines 68-103) -/

/-- Default `streamSize` (`DEPTH_TO_FLUSH`). -/
def DEPTH_TO_FLUSH : Int := 12

/-- Default `numConfirmations` (`DEPTH_TO_CONFIRM`). -/
def DEPTH_TO_CONFIRM : Int := 5

/-- `BATCH_SIZE` constant of `EthStream.ts`. -/
def BATCH_SIZE : Int := 100

/-- The constructor props that take part in validation. The three `from*`
fields model the JS truthiness of the corresponding props; the two numeric
fields are `none` when absent. -/
structure EthStreamProps where
  fromBlockHash : Bool
  fromBlockNumber : Bool
  fromSnapshot : Bool
  streamSize : Option Int
  numConfirmations : Option Int
deriving Repr, DecidableEq

/-- JS truthiness of an optional number: absent and `0` are falsy. -/
def isTruthy : Option Int → Bool
  | none => false
  | some n => n != 0

/-- The configuration fields fixed by the constructor. -/
structure FullConfig where
  streamSize : Int
  numConfirmations : Int
  maxBackfills : Int
deriving Repr, DecidableEq

/-- The constructor (lines 68-103), restricted to its synchronous
validation and configuration logic: reject a missing provider and more than
one anchor; when `props.streamSize` is truthy adopt it (and `maxBackfills`
with it) and — only if `props.numConfirmations` is also truthy — reject
`numConfirmations >= streamSize`; when `props.numConfirmations` is truthy
adopt it. -/
def mkEthStream (hasProvider : Bool) (props : EthStreamProps) :
    Except String FullConfig :=
  if hasProvider = false then
    Except.error "web3 provider must be specified"
  else if 1 < ([props.fromBlockHash, props.fromBlockNumber,
      props.fromSnapshot].countP id) then
    Except.error "only one allowed: fromBlockHash, fromBlockNumber, fromSnapshot"
  else
    let streamSize :=
      if isTruthy props.streamSize then props.streamSize.getD 0 else DEPTH_TO_FLUSH
    if isTruthy props.streamSize && isTruthy props.numConfirmations &&
        decide (streamSize ≤ props.numConfirmations.getD 0) then
      Except.error "numConfirmations must be less than streamSize"
    else
      let numConfirmations :=
        if isTruthy props.numConfirmations then props.numConfirmations.getD 0
        else DEPTH_TO_CONFIRM
      Except.ok ⟨streamSize, numConfirmations, streamSize⟩

/-- C6, counterexample. Supplying `streamSize = 3` and leaving
`numConfirmations` at its default (5) yields a configuration with
`numConfirmations ≥ streamSize`, yet the constructor does not throw: the
check runs only when both props are explicitly truthy. -/
theorem ctor_throws_counterexample :
    mkEthStream true ⟨false, false, false, some 3, none⟩ =
      Except.ok ⟨3, 5, 3⟩ ∧
    (FullConfig.numConfirmations ⟨3, 5, 3⟩ ≥ FullConfig.streamSize ⟨3, 5, 3⟩) := by
  constructor
  · rfl
  · decide

/-- C6, amended. The constructor throws exactly when the provider is missing,
more than one anchor prop is given, or both `streamSize` and
`numConfirmations` are explicitly supplied (truthy) with
`numConfirmations ≥ streamSize`. In particular a configuration whose
effective `numConfirmations ≥ streamSize` arises from a defaulted field is
accepted. -/
theorem ctor_throws_characterization (hasProvider : Bool) (props : EthStreamProps) :
    (∃ e, mkEthStream hasProvider props = Except.error e) ↔
      (hasProvider = false ∨
        1 < ([props.fromBlockHash, props.fromBlockNumber,
          props.fromSnapshot].countP id) ∨
        (isTruthy props.streamSize = true ∧ isTruthy props.numConfirmations = true ∧
          props.streamSize.getD 0 ≤ props.numConfirmations.getD 0)) := by
  simp only [mkEthStream]
  by_cases hp : hasProvider = false
  · simp [hp]
  · rw [if_neg hp]
    by_cases hc : 1 < ([props.fromBlockHash, props.fromBlockNumber,
        props.fromSnapshot].countP id)
    · simp [hc]
    · rw [if_neg hc]
      by_cases hs : isTruthy props.streamSize = true
      · by_cases hn : isTruthy props.numConfirmations = true
        · by_cases hge : props.streamSize.getD 0 ≤ props.numConfirmations.getD 0
          · rw [if_pos (by simp [hs, hn, hge])]
            simp [hp, hc, hs, hn, hge]
          · rw [if_neg (by simp [hs, hn, hge])]
            simp [hp, hc, hge]
        · rw [if_neg (by simp [hn])]
          simp [hp, hc, hn]
      · rw [if_neg (by simp [hs])]
        simp [hp, hc, hs]

/-! ## Claim C7: `EventEmitter.emit` (EventEmitter.ts, lines 20-26) -/

/-- Result of invoking one user handler: normal return or a thrown
exception. -/
inductive HandlerResult where
  | ok
  | threw
deriving Repr, DecidableEq

/-- `EventEmitter.on`: create the topic's list if needed and append. -/
def emitterOn (ls : List (String × List Nat)) (event : String) (listener : Nat) :
    List (String × List Nat) :=
  if ls.any (fun p => p.1 == event) then
    ls.map (fun p => if p.1 == event then (p.1, p.2 ++ [listener]) else p)
  else ls ++ [(event, [listener])]

/-- The handlers registered for a topic (`this.listeners[event]`, `[]` when
undefined). -/
def listenersFor (ls : List (String × List Nat)) (event : String) : List Nat :=
  match ls.find? (fun p => p.1 == event) with
  | some p => p.2
  | none => []

/-- The `forEach` dispatch of `emit`: invoke handlers in order; a handler
that throws propagates its exception out of `forEach`, so the remaining
handlers are not invoked. Returns the invoked handlers in order and the
handler whose exception aborted dispatch, if any. -/
def emitDispatch (behaviour : Nat → HandlerResult) : List Nat → List Nat × Option Nat
  | [] => ([], none)
  | h :: rest =>
    match behaviour h with
    | HandlerResult.ok =>
      let out := emitDispatch behaviour rest
      (h :: out.1, out.2)
    | HandlerResult.threw => ([h], some h)

/-- `emit(event, ...)`: look up the topic's handlers and dispatch. -/
def emit (ls : List (String × List Nat)) (event : String)
    (behaviour : Nat → HandlerResult) : List Nat × Option Nat :=
  emitDispatch behaviour (listenersFor ls event)

def listeners7 : List (String × List Nat) := emitterOn (emitterOn [] "add" 0) "add" 1

def behaviour7 : Nat → HandlerResult :=
  fun n => if n == 0 then HandlerResult.threw else HandlerResult.ok

/-- C7, counterexample. Two handlers are registered for `"add"`; the first
throws. `forEach` does not catch handler exceptions, so the second handler —
registered at the time of the call — is never invoked, contradicting the
claim that an exception in one handler does not prevent the remaining
handlers from being invoked. -/
theorem emit_exception_counterexample :
    listenersFor listeners7 "add" = [0, 1] ∧
    emit listeners7 "add" behaviour7 = ([0], some 0) ∧
    1 ∉ (emit listeners7 "add" behaviour7).1 := by
  refine ⟨rfl, rfl, ?_⟩
  decide

theorem emitDispatch_all_ok {behaviour : Nat → HandlerResult} :
    ∀ {l : List Nat}, (∀ h ∈ l, behaviour h = HandlerResult.ok) →
      emitDispatch behaviour l = (l, none)
  | [], _ => rfl
  | h :: rest, hall => by
    have hh := hall h (List.mem_cons_self _ _)
    have ih := @emitDispatch_all_ok behaviour rest
      (fun x hx => hall x (List.mem_cons_of_mem _ hx))
    simp [emitDispatch, hh, ih]

theorem emitDispatch_stops_at_throw {behaviour : Nat → HandlerResult} :
    ∀ {l1 : List Nat} {x : Nat} {l2 : List Nat},
      (∀ h ∈ l1, behaviour h = HandlerResult.ok) →
      behaviour x = HandlerResult.threw →
      emitDispatch behaviour (l1 ++ x :: l2) = (l1 ++ [x], some x)
  | [], x, l2, _, hx => by simp [emitDispatch, hx]
  | h :: rest, x, l2, hall, hx => by
    have hh := hall h (List.mem_cons_self _ _)
    have ih := @emitDispatch_stops_at_throw behaviour rest x l2
      (fun y hy => hall y (List.mem_cons_of_mem _ hy)) hx
    simp [emitDispatch, hh, ih]

/-- C7, amended. `emit` invokes handlers synchronously in registration order,
but an exception in a handler propagates out of `forEach` and prevents the
remaining handlers from being invoked: when every registered handler returns
normally all are invoked in order; when the registration list splits as
`l1 ++ x :: l2` with every handler of `l1` returning normally and `x`
throwing, exactly `l1 ++ [x]` are invoked and the handlers of `l2` are
skipped. -/
theorem emit_dispatch_order (ls : List (String × List Nat)) (event : String)
    (behaviour : Nat → HandlerResult) :
    ((∀ h ∈ listenersFor ls event, behaviour h = HandlerResult.ok) →
      emit ls event behaviour = (listenersFor ls event, none)) ∧
    (∀ l1 x l2, listenersFor ls event = l1 ++ x :: l2 →
      (∀ h ∈ l1, behaviour h = HandlerResult.ok) →
      behaviour x = HandlerResult.threw →
      emit ls event behaviour = (l1 ++ [x], some x)) := by
  constructor
  · intro hall
    exact emitDispatch_all_ok hall
  · intro l1 x l2 hsplit h1 hx
    unfold emit
    rw [hsplit]
    exact emitDispatch_stops_at_throw h1 hx

theorem emit_dispatch_order_witness :
    (∀ h ∈ listenersFor listeners7 "add", (fun _ => HandlerResult.ok) h = HandlerResult.ok) ∧
    emit listeners7 "add" (fun _ => HandlerResult.ok) = (listenersFor listeners7 "add", none) :=
  ⟨by decide, (emit_dispatch_order listeners7 "add" (fun _ => HandlerResult.ok)).1 (by decide)⟩

/-! ## Claim C8: the batch-backfill fetch range (`addOldBlocks`, lines 179-221) -/

/-- The fetch loop of `addOldBlocks` (lines 194-206): starting at
`maxBlockNumber + 1`, fetch block numbers while
`blockNumber < currentBlockNumber - maxBackfills + 1 &&
blockNumber - maxBlockNumber < BATCH_SIZE`. The loop body runs at most
`BATCH_SIZE - 1` times, so `BATCH_SIZE.toNat` of structural fuel is exact. -/
def addOldBlocksLoop (currentBlockNumber maxBackfills maxBlockNumber : Int) :
    Nat → Int → List Int
  | 0, _ => []
  | fuel + 1, blockNumber =>
    if blockNumber < currentBlockNumber - maxBackfills + 1 ∧
        blockNumber - maxBlockNumber < BATCH_SIZE then
      blockNumber ::
        addOldBlocksLoop currentBlockNumber maxBackfills maxBlockNumber fuel (blockNumber + 1)
    else []

/-- The block numbers fetched by one batch cycle of `addOldBlocks`. -/
def addOldBlocksNumbers (currentBlockNumber maxBackfills maxBlockNumber : Int) : List Int :=
  addOldBlocksLoop currentBlockNumber maxBackfills maxBlockNumber
    BATCH_SIZE.toNat (maxBlockNumber + 1)

/-- The inclusive integer interval `[lo, hi]`. -/
def intRange (lo hi : Int) : List Int :=
  (List.range (hi + 1 - lo).toNat).map (fun (i : Nat) => lo + (i : Int))

/-- Modelled from the spec (claim C8's wording): the claimed fetch range
`[maxBlockNumber+1 … min(head − maxBackfills, maxBlockNumber + batchSize)]`. -/
def claimedBatchNumbers (head maxBackfills maxBlockNumber : Int) : List Int :=
  intRange (maxBlockNumber + 1) (min (head - maxBackfills) (maxBlockNumber + BATCH_SIZE))

theorem intRange_cons {lo hi : Int} (h : lo ≤ hi) :
    intRange lo hi = lo :: intRange (lo + 1) hi := by
  unfold intRange
  have h1 : (hi + 1 - lo).toNat = (hi + 1 - (lo + 1)).toNat + 1 := by omega
  rw [h1, List.range_succ_eq_map, List.map_cons, List.map_map]
  congr 1
  · simp
  · apply List.map_congr_left
    intro i _
    simp only [Function.comp_apply]
    push_cast
    omega

theorem intRange_nil {lo hi : Int} (h : ¬ lo ≤ hi) : intRange lo hi = [] := by
  unfold intRange
  have h1 : (hi + 1 - lo).toNat = 0 := by omega
  rw [h1]
  rfl

theorem intRange_length (lo hi : Int) : (intRange lo hi).length = (hi + 1 - lo).toNat := by
  unfold intRange
  simp

theorem addOldBlocksLoop_eq (c m mx : Int) :
    ∀ (fuel : Nat) (bn : Int), mx + BATCH_SIZE ≤ bn + fuel →
      addOldBlocksLoop c m mx fuel bn = intRange bn (min (c - m) (mx + BATCH_SIZE - 1))
  | 0, bn, hfuel => by
    rw [addOldBlocksLoop, intRange_nil]
    simp only [BATCH_SIZE] at hfuel ⊢
    omega
  | fuel + 1, bn, hfuel => by
    rw [addOldBlocksLoop]
    split
    · next h =>
      rw [intRange_cons (by simp only [BATCH_SIZE] at h ⊢; omega)]
      rw [addOldBlocksLoop_eq c m mx fuel (bn + 1) (by omega)]
    · next h =>
      rw [intRange_nil]
      simp only [BATCH_SIZE, not_and, not_lt] at h ⊢
      omega

/-- C8, amended. When `head > maxBlockNumber + maxBackfills`, one batch cycle
fetches exactly the block numbers from `maxBlockNumber + 1` up to
`min(head − maxBackfills, maxBlockNumber + BATCH_SIZE − 1)` inclusive — the
upper bound is `batchSize − 1` above `maxBlockNumber`, not `batchSize` —
hence at most `99` blocks per cycle, and at least one. -/
theorem addOldBlocks_batch_range (head maxBackfills maxBlockNumber : Int)
    (hgap : head > maxBlockNumber + maxBackfills) :
    addOldBlocksNumbers head maxBackfills maxBlockNumber =
      intRange (maxBlockNumber + 1)
        (min (head - maxBackfills) (maxBlockNumber + BATCH_SIZE - 1)) ∧
    (addOldBlocksNumbers head maxBackfills maxBlockNumber).length ≤ 99 ∧
    addOldBlocksNumbers head maxBackfills maxBlockNumber ≠ [] := by
  have heq : addOldBlocksNumbers head maxBackfills maxBlockNumber =
      intRange (maxBlockNumber + 1)
        (min (head - maxBackfills) (maxBlockNumber + BATCH_SIZE - 1)) := by
    unfold addOldBlocksNumbers
    apply addOldBlocksLoop_eq
    simp only [BATCH_SIZE]
    omega
  refine ⟨heq, ?_, ?_⟩
  · rw [heq, intRange_length]
    simp only [BATCH_SIZE]
    omega
  · rw [heq, intRange_cons (by simp only [BATCH_SIZE]; omega)]
    exact List.cons_ne_nil _ _

/-- C8, counterexample. With `head = 200`, `maxBackfills = 12`,
`maxBlockNumber = 0`, the claim's range `[1 … min(188, 100)] = [1 … 100]`
has 100 entries, but the code fetches `[1 … 99]` — the guard
`blockNumber - maxBlockNumber < BATCH_SIZE` stops one short of the claimed
`maxBlockNumber + batchSize` bound. -/
theorem addOldBlocks_batch_range_counterexample :
    addOldBlocksNumbers 200 12 0 ≠ claimedBatchNumbers 200 12 0 ∧
    (addOldBlocksNumbers 200 12 0).length = 99 ∧
    (claimedBatchNumbers 200 12 0).length = 100 := by
  refine ⟨?_, by decide, by decide⟩
  decide

theorem addOldBlocks_batch_range_witness :
    (200 : Int) > 0 + 12 ∧
    (addOldBlocksNumbers 200 12 0).length ≤ 99 :=
  ⟨by decide, (addOldBlocks_batch_range 200 12 0 (by decide)).2.1⟩

/-! ## The engine state

`blocksToAdd` is the staging queue, `tree` the `addedBlocksByHash` map in
insertion order, `handlers` the `blockAddedHandlers` table reduced to the
count of pending resolvers per hash. -/

structure EngineState where
  blocksToAdd : List Block
  tree : List Block
  maxBlockNumber : Int
  handlers : List (String × Nat)
deriving Repr, DecidableEq

/-- The state of a freshly constructed engine. -/
def initialState : EngineState := ⟨[], [], 0, []⟩

/-- Number of pending `addBlock` resolvers for a hash
(`blockAddedHandlers[hash].length`, `0` when absent). -/
def handlersCount (hs : List (String × Nat)) (h : String) : Nat :=
  match hs.find? (fun p => p.1 == h) with
  | some p => p.2
  | none => 0

/-- Register one more resolver for a hash (create the list if needed, push). -/
def handlersAdd (hs : List (String × Nat)) (h : String) : List (String × Nat) :=
  if hs.any (fun p => p.1 == h) then
    hs.map (fun p => if p.1 == h then (p.1, p.2 + 1) else p)
  else hs ++ [(h, 1)]

/-- `delete this.blockAddedHandlers[block.hash]`. -/
def handlersDelete (hs : List (String × Nat)) (h : String) : List (String × Nat) :=
  hs.filter (fun p => p.1 != h)

/-- The ancestor walk of `insertBlock` (lines 332-342): while the parent
exists and `parent.childDepth < childDepth`, emit `confirm(parent)` when
`childDepth === numConfirmations` (before the update), set the parent's
`childDepth`, and move to the grandparent. The recursion is bounded by
`fuel`; `insertBlock` passes the tree size, which suffices whenever ancestor
chains are acyclic (block numbers strictly decrease along `parentHash`, as
they do for real chains) — exactly the condition under which the source's
unbounded `while` loop terminates. -/
def walkAncestors (numConfirmations : Int) :
    Nat → List Block → Option Block → Int → List Block × List Event
  | 0, t, _, _ => (t, [])
  | _ + 1, t, none, _ => (t, [])
  | fuel + 1, t, some parent, childDepth =>
    if parent.childDepth < childDepth then
      let evs := if childDepth = numConfirmations then [Event.confirm parent] else []
      let t1 := treeSet t { parent with childDepth := childDepth }
      let next := treeGet t1 parent.parentHash
      let out := walkAncestors numConfirmations fuel t1 next (childDepth + 1)
      (out.1, evs ++ out.2)
    else (t, [])

/-- `insertBlock` (lines 319-345): emit `add`, resolve the pending `addBlock`
futures for this hash (returned as a count), raise `maxBlockNumber`, insert
the block with `childDepth = 0`, walk its ancestors, then run the pruner.
Returns the new state, the emitted events in order, and the number of
resolved futures. -/
def insertBlock (cfg : Config) (s : EngineState) (block : Block) :
    EngineState × List Event × Nat :=
  let resolved := handlersCount s.handlers block.hash
  let handlers1 := handlersDelete s.handlers block.hash
  let max1 := if block.number > s.maxBlockNumber then block.number else s.maxBlockNumber
  let b0 := { block with childDepth := 0 }
  let t1 := treeSet s.tree b0
  let walkOut := walkAncestors cfg.numConfirmations t1.length t1 (treeGet t1 b0.parentHash) 1
  let flushOut := flushFlushableBlocks cfg walkOut.1
  ({ blocksToAdd := s.blocksToAdd, tree := flushOut.1, maxBlockNumber := max1,
     handlers := handlers1 },
   Event.add block :: (walkOut.2 ++ flushOut.2), resolved)

/-- `Block.fromBlock`: the boundary conversion resets `childDepth` to `0`. -/
def fromBlock (b : Block) : Block := { b with childDepth := 0 }

/-- Stable-enough model of `blocksToAdd.sort((a, b) => a.number - b.number)`:
insertion sort ascending by `number`. Only the membership and count of the
queue matter for the claims below. -/
def insertByNumber (b : Block) : List Block → List Block
  | [] => [b]
  | x :: xs => if x.number ≤ b.number then x :: insertByNumber b xs else b :: x :: xs

def sortByNumber : List Block → List Block
  | [] => []
  | x :: xs => insertByNumber x (sortByNumber xs)

/-- `queueBlock` (lines 223-229): skip if the hash is in the tree or already
queued, otherwise push and re-sort the queue by ascending `number`. -/
def queueBlock (s : EngineState) (block : Block) : EngineState :=
  if treeHas s.tree block.hash then s
  else if s.blocksToAdd.any (fun b => b.hash == block.hash) then s
  else { s with blocksToAdd := sortByNumber (s.blocksToAdd ++ [block]) }

/-- `addBlock` (lines 121-135): convert the incoming block, queue it, start a
run (asynchronous: its first await yields before any insertion, so no
insertion happens synchronously inside `addBlock`), and return whether the
returned promise resolved immediately (the hash was already in the tree) or
a resolver was registered for the hash. -/
def addBlock (s : EngineState) (web3Block : Block) : EngineState × Bool :=
  let block := fromBlock web3Block
  let s1 := queueBlock s block
  if treeHas s1.tree block.hash then (s1, true)
  else ({ s1 with handlers := handlersAdd s1.handlers block.hash }, false)

/-- `N` consecutive `addBlock` calls with the same block; returns the final
state and how many of the returned futures resolved immediately. -/
def addBlockN : Nat → EngineState → Block → EngineState × Nat
  | 0, s, _ => (s, 0)
  | n + 1, s, b =>
    let out := addBlock s b
    let rest := addBlockN n out.1 b
    (rest.1, (if out.2 then 1 else 0) + rest.2)

/-- `takeSnapshot` (lines 231-236): serialize every tree block; with the
total `childDepth` field of this model, `childDepth || 0` is the identity. -/
def takeSnapshot (s : EngineState) : List Block :=
  s.tree.map (fun b =>
    { hash := b.hash, parentHash := b.parentHash, number := b.number,
      childDepth := b.childDepth, logsBloom := b.logsBloom })

/-- `restoreFromSnapshot` (lines 347-353): bulk `set` every snapshot entry
and raise `maxBlockNumber`, emitting nothing. -/
def restoreFromSnapshot (s : EngineState) (snapshot : List Block) : EngineState :=
  snapshot.foldl (fun acc b =>
    { acc with
      tree := treeSet acc.tree b,
      maxBlockNumber :=
        if b.number > acc.maxBlockNumber then b.number else acc.maxBlockNumber }) s

/-! ## Engine runs as sequences of tree operations

A run of the engine mutates the tree through two operations: `insert b` — an
insertion as performed by the drain loop of `run()` (line 273 guards against
re-inserting a hash already in the tree; the backfill and anchor paths call
`insertBlock` directly, but only with hashes of blocks not yet retained) —
and `restore snap`, a `restoreFromSnapshot` call.  The log records emitted
events and, for bookkeeping, which blocks each `restore` introduced
silently. -/

inductive Op where
  | insert (b : Block)
  | restore (snapshot : List Block)
deriving Repr, DecidableEq

inductive LogEntry where
  | ev (e : Event)
  | restored (b : Block)
deriving Repr, DecidableEq

def stepOp (cfg : Config) (s : EngineState) : Op → EngineState × List LogEntry
  | Op.insert b =>
    if treeHas s.tree b.hash then (s, [])
    else
      let out := insertBlock cfg s b
      (out.1, out.2.1.map LogEntry.ev)
  | Op.restore snap => (restoreFromSnapshot s snap, snap.map LogEntry.restored)

def runOps (cfg : Config) (s : EngineState) : List Op → EngineState × List LogEntry
  | [] => (s, [])
  | op :: rest =>
    let out := stepOp cfg s op
    let next := runOps cfg out.1 rest
    (next.1, out.2 ++ next.2)

/-- The events actually emitted during a run (the `restored` bookkeeping
entries emit nothing). -/
def emittedEvents (l : List LogEntry) : List Event :=
  l.filterMap (fun entry => match entry with
    | LogEntry.ev e => some e
    | LogEntry.restored _ => none)

theorem emittedEvents_append (l1 l2 : List LogEntry) :
    emittedEvents (l1 ++ l2) = emittedEvents l1 ++ emittedEvents l2 := by
  unfold emittedEvents
  rw [List.filterMap_append]

theorem emittedEvents_restored (l : List Block) :
    emittedEvents (l.map LogEntry.restored) = [] := by
  induction l with
  | nil => rfl
  | cons b rest ih => simp [emittedEvents]

theorem emittedEvents_ev (l : List Event) :
    emittedEvents (l.map LogEntry.ev) = l := by
  induction l with
  | nil => rfl
  | cons e rest ih => simpa [emittedEvents] using ih

/-! ## Claim C5: snapshot round-trip -/

theorem takeSnapshot_eq (s : EngineState) : takeSnapshot s = s.tree := by
  unfold takeSnapshot
  conv_rhs => rw [← List.map_id s.tree]
  apply List.map_congr_left
  intro b _
  cases b
  rfl

theorem restoreFromSnapshot_tree (snapshot : List Block) (s : EngineState) :
    (restoreFromSnapshot s snapshot).tree = snapshot.foldl treeSet s.tree := by
  induction snapshot generalizing s with
  | nil => rfl
  | cons b rest ih => exact ih _

theorem restoreFromSnapshot_max (snapshot : List Block) (s : EngineState) :
    (restoreFromSnapshot s snapshot).maxBlockNumber =
      snapshot.foldl (fun m b => if b.number > m then b.number else m)
        s.maxBlockNumber := by
  induction snapshot generalizing s with
  | nil => rfl
  | cons b rest ih => exact ih _

theorem foldl_treeSet_of_nodup :
    ∀ (snapshot acc : List Block), nodupKeys (acc ++ snapshot) →
      snapshot.foldl treeSet acc = acc ++ snapshot
  | [], acc, _ => by simp
  | b :: rest, acc, hn => by
    have hb : acc.any (fun x => x.hash == b.hash) = false := by
      unfold nodupKeys at hn
      rw [List.map_append, List.nodup_append] at hn
      rcases hn with ⟨_, _, hdisj⟩
      rw [Bool.eq_false_iff]
      intro hany
      rcases List.any_eq_true.mp hany with ⟨x, hx, hxb⟩
      exact hdisj (List.mem_map.mpr ⟨x, hx, rfl⟩)
        (by
          rw [List.map_cons]
          exact List.mem_cons.mpr (Or.inl (by simpa using hxb)))
    have hstep : treeSet acc b = acc ++ [b] := treeSet_of_absent hb
    rw [List.foldl_cons, hstep,
      foldl_treeSet_of_nodup rest (acc ++ [b]) (by simpa using hn)]
    simp

/-- C5. Feeding `takeSnapshot()`'s output to `restoreFromSnapshot` on a fresh
engine reproduces the retained tree exactly (every block with its `hash`,
`parentHash`, `number` and `childDepth`) and the same `maxBlockNumber`, and
emits no `add`, `confirm` or `rollback` event.  The two hypotheses hold for
every reachable engine state: tree keys are unique (a `Map`), and
`maxBlockNumber` equals the tree's recomputed maximum because the engine only
raises it to numbers of inserted blocks and the pruner never removes a
maximal block. -/
theorem snapshot_roundtrip (cfg : Config) (s : EngineState)
    (hn : nodupKeys s.tree) (hmax : s.maxBlockNumber = treeMaxNumber s.tree) :
    (restoreFromSnapshot initialState (takeSnapshot s)).tree = s.tree ∧
    (restoreFromSnapshot initialState (takeSnapshot s)).maxBlockNumber =
      s.maxBlockNumber ∧
    emittedEvents (stepOp cfg initialState (Op.restore (takeSnapshot s))).2 = [] := by
  refine ⟨?_, ?_, ?_⟩
  · rw [restoreFromSnapshot_tree, takeSnapshot_eq]
    exact foldl_treeSet_of_nodup s.tree [] (by simpa using hn)
  · rw [restoreFromSnapshot_max, takeSnapshot_eq, hmax]
    rfl
  · exact emittedEvents_restored _

def state5 : EngineState := ⟨[], tree2, 20, []⟩

theorem snapshot_roundtrip_witness :
    nodupKeys state5.tree ∧
    (restoreFromSnapshot initialState (takeSnapshot state5)).tree = state5.tree :=
  ⟨by decide, (snapshot_roundtrip cfg2 state5 (by decide) (by decide)).1⟩

/-! ## Claim C4: idempotence of `addBlock` -/

theorem countP_insertByNumber (p : Block → Bool) (b : Block) :
    ∀ l : List Block, (insertByNumber b l).countP p = l.countP p + (if p b then 1 else 0)
  | [] => by simp [insertByNumber, List.countP_cons]
  | x :: xs => by
    rw [insertByNumber]
    split
    · simp only [List.countP_cons, countP_insertByNumber p b xs]
      try omega
    · simp only [List.countP_cons]
      try omega

theorem countP_sortByNumber (p : Block → Bool) :
    ∀ l : List Block, (sortByNumber l).countP p = l.countP p
  | [] => rfl
  | x :: xs => by
    rw [sortByNumber, countP_insertByNumber, countP_sortByNumber p xs, List.countP_cons]

theorem any_sortByNumber (p : Block → Bool) (l : List Block) :
    (sortByNumber l).any p = l.any p := by
  rw [Bool.eq_iff_iff, List.any_eq_true, List.any_eq_true]
  constructor
  · rintro ⟨x, hx, hp⟩
    have hpos : 0 < l.countP p := by
      rw [← countP_sortByNumber p l]
      exact List.countP_pos_iff.mpr ⟨x, hx, hp⟩
    rcases List.countP_pos_iff.mp hpos with ⟨y, hy, hp'⟩
    exact ⟨y, hy, hp'⟩
  · rintro ⟨x, hx, hp⟩
    have hpos : 0 < (sortByNumber l).countP p := by
      rw [countP_sortByNumber p l]
      exact List.countP_pos_iff.mpr ⟨x, hx, hp⟩
    rcases List.countP_pos_iff.mp hpos with ⟨y, hy, hp'⟩
    exact ⟨y, hy, hp'⟩

theorem handlersCount_handlersAdd (hs : List (String × Nat)) (h : String) :
    handlersCount (handlersAdd hs h) h = handlersCount hs h + 1 := by
  unfold handlersAdd
  split
  · next hp =>
    induction hs with
    | nil => simp at hp
    | cons q qs ih =>
      by_cases hq : (q.1 == h) = true
      · unfold handlersCount
        rw [List.map_cons, if_pos hq, List.find?_cons_of_pos _ (by exact hq),
          List.find?_cons_of_pos _ (by exact hq)]
      · unfold handlersCount
        rw [List.map_cons, if_neg hq, List.find?_cons_of_neg _ (by exact hq),
          List.find?_cons_of_neg _ (by exact hq)]
        have hp' : qs.any (fun p => p.1 == h) = true := by
          rcases List.any_eq_true.mp hp with ⟨x, hx, hxh⟩
          rcases List.mem_cons.mp hx with rfl | hmem
          · exact absurd hxh (by simpa using hq)
          · exact List.any_eq_true.mpr ⟨x, hmem, hxh⟩
        exact ih hp'
  · next hp =>
    unfold handlersCount
    rw [List.find?_append]
    have hnone : List.find? (fun p => p.1 == h) hs = none := by
      rw [List.find?_eq_none]
      intro x hx
      have := List.any_eq_true.not.mp hp
      push_neg at this
      simpa using this x hx
    rw [hnone]
    simp

theorem handlersCount_handlersDelete (hs : List (String × Nat)) (h : String) :
    handlersCount (handlersDelete hs h) h = 0 := by
  unfold handlersCount handlersDelete
  have : List.find? (fun p => p.1 == h) (hs.filter (fun p => p.1 != h)) = none := by
    rw [List.find?_eq_none]
    intro x hx
    have := List.of_mem_filter hx
    simp only [bne_iff_ne, ne_eq, decide_eq_true_eq] at this
    simpa using this
  rw [this]

theorem walkAncestors_events_confirm (numConfirmations : Int) :
    ∀ (fuel : Nat) (t : List Block) (op : Option Block) (d : Int),
      ∀ e ∈ (walkAncestors numConfirmations fuel t op d).2, ∃ c, e = Event.confirm c
  | 0, t, op, d => by simp [walkAncestors]
  | fuel + 1, t, none, d => by simp [walkAncestors]
  | fuel + 1, t, some parent, d => by
    intro e he
    rw [walkAncestors] at he
    split at he
    · simp only [List.mem_append] at he
      rcases he with he | he
      · split at he
        · rcases List.mem_singleton.mp he with rfl
          exact ⟨parent, rfl⟩
        · simp at he
      · exact walkAncestors_events_confirm numConfirmations fuel _ _ _ e he
    · simp at he

theorem flush_events_rollback (cfg : Config) (t : List Block) :
    ∀ e ∈ (flushFlushableBlocks cfg t).2, ∃ c, e = Event.rollback c := by
  intro e he
  rw [flushFlushableBlocks_snd] at he
  rcases List.mem_map.mp he with ⟨c, _, rfl⟩
  exact ⟨c, rfl⟩

theorem countP_add_walk (numConfirmations : Int) (fuel : Nat) (t : List Block)
    (op : Option Block) (d : Int) (h : String) :
    (walkAncestors numConfirmations fuel t op d).2.countP
      (fun e => match e with | Event.add c => c.hash == h | _ => false) = 0 := by
  rw [List.countP_eq_zero]
  intro e he
  rcases walkAncestors_events_confirm numConfirmations fuel t op d e he with ⟨c, rfl⟩
  simp

theorem countP_add_flush (cfg : Config) (t : List Block) (h : String) :
    (flushFlushableBlocks cfg t).2.countP
      (fun e => match e with | Event.add c => c.hash == h | _ => false) = 0 := by
  rw [List.countP_eq_zero]
  intro e he
  rcases flush_events_rollback cfg t e he with ⟨c, rfl⟩
  simp

/-- One `addBlock` call on a state that already stages the hash in the queue
(but not in the tree) only registers one more resolver. -/
theorem addBlock_queued (s : EngineState) (b : Block)
    (htree : treeHas s.tree b.hash = false)
    (hqueue : s.blocksToAdd.any (fun x => x.hash == b.hash) = true) :
    addBlock s b = ({ s with handlers := handlersAdd s.handlers b.hash }, false) := by
  rcases List.any_eq_true.mp hqueue with ⟨x, hx, hxb⟩
  have hex : ∃ y ∈ s.blocksToAdd, y.hash = b.hash := ⟨x, hx, by simpa using hxb⟩
  unfold addBlock queueBlock fromBlock
  simp [htree, hex]

theorem addBlockN_queued (b : Block) :
    ∀ (n : Nat) (s : EngineState),
      treeHas s.tree b.hash = false →
      s.blocksToAdd.any (fun x => x.hash == b.hash) = true →
      (addBlockN n s b).2 = 0 ∧
      (addBlockN n s b).1.blocksToAdd = s.blocksToAdd ∧
      (addBlockN n s b).1.tree = s.tree ∧
      handlersCount (addBlockN n s b).1.handlers b.hash =
        handlersCount s.handlers b.hash + n
  | 0, s, _, _ => ⟨rfl, rfl, rfl, rfl⟩
  | n + 1, s, htree, hqueue => by
    rw [addBlockN]
    simp only [addBlock_queued s b htree hqueue]
    have ih := addBlockN_queued b n { s with handlers := handlersAdd s.handlers b.hash }
      htree hqueue
    refine ⟨by simp [ih.1], by simp [ih.2.1], by simp [ih.2.2.1], ?_⟩
    rw [ih.2.2.2]
    simp only
    rw [handlersCount_handlersAdd]
    omega

/-- C4. For a block `B` not yet retained, staged or awaited, calling
`addBlock` `N ≥ 1` times with `B` resolves none of the futures immediately,
stages exactly one copy of `B` in the queue, and leaves `N` pending
resolvers; the eventual insertion of `B` (the drain loop's `insertBlock`)
then emits exactly one `add` event for `B.hash` and resolves all `N`
futures.  When `B` is already present in the tree, every one of the `N`
calls resolves immediately and the state is unchanged. -/
theorem addBlock_idempotent (cfg : Config) (s : EngineState) (b : Block) (N : Nat)
    (hN : 1 ≤ N)
    (htree : treeHas s.tree b.hash = false)
    (hqueue : s.blocksToAdd.any (fun x => x.hash == b.hash) = false)
    (hhand : handlersCount s.handlers b.hash = 0) :
    (addBlockN N s b).2 = 0 ∧
    (addBlockN N s b).1.blocksToAdd.countP (fun x => x.hash == b.hash) = 1 ∧
    handlersCount (addBlockN N s b).1.handlers b.hash = N ∧
    ((insertBlock cfg (addBlockN N s b).1 (fromBlock b)).2.1.countP
      (fun e => match e with | Event.add c => c.hash == b.hash | _ => false)) = 1 ∧
    (insertBlock cfg (addBlockN N s b).1 (fromBlock b)).2.2 = N ∧
    handlersCount (insertBlock cfg (addBlockN N s b).1 (fromBlock b)).1.handlers
      b.hash = 0 ∧
    (∀ s2 : EngineState, treeHas s2.tree b.hash = true →
      addBlockN N s2 b = (s2, N)) := by
  obtain ⟨n, rfl⟩ : ∃ n, N = n + 1 := ⟨N - 1, by omega⟩
  have hq0 : s.blocksToAdd.countP (fun x => x.hash == b.hash) = 0 := by
    by_contra hc
    have hpos : 0 < s.blocksToAdd.countP (fun x => x.hash == b.hash) := by omega
    rcases List.countP_pos_iff.mp hpos with ⟨x, hx, hp⟩
    rw [Bool.eq_false_iff] at hqueue
    exact hqueue (List.any_eq_true.mpr ⟨x, hx, hp⟩)
  -- the first call stages the block and registers the first resolver
  have hstep1 : addBlock s b =
      ({ s with
          blocksToAdd := sortByNumber (s.blocksToAdd ++ [fromBlock b]),
          handlers := handlersAdd s.handlers b.hash }, false) := by
    have hnex : ¬ ∃ y ∈ s.blocksToAdd, y.hash = b.hash := by
      rintro ⟨x, hx, hxb⟩
      rw [Bool.eq_false_iff] at hqueue
      exact hqueue (List.any_eq_true.mpr ⟨x, hx, by simpa using hxb⟩)
    unfold addBlock queueBlock fromBlock
    simp [htree, hnex]
  set s1 : EngineState :=
    { s with
        blocksToAdd := sortByNumber (s.blocksToAdd ++ [fromBlock b]),
        handlers := handlersAdd s.handlers b.hash } with hs1
  have hq1 : s1.blocksToAdd.countP (fun x => x.hash == b.hash) = 1 := by
    rw [hs1]
    simp only
    rw [countP_sortByNumber, List.countP_append, hq0]
    simp [fromBlock]
  have hqany1 : s1.blocksToAdd.any (fun x => x.hash == b.hash) = true := by
    rcases List.countP_pos_iff.mp (by omega : 0 < s1.blocksToAdd.countP
      (fun x => x.hash == b.hash)) with ⟨x, hx, hp⟩
    exact List.any_eq_true.mpr ⟨x, hx, hp⟩
  have htree1 : treeHas s1.tree b.hash = false := by rw [hs1]; exact htree
  have hh1 : handlersCount s1.handlers b.hash = 1 := by
    rw [hs1]
    simp only
    rw [handlersCount_handlersAdd, hhand]
  have hrest := addBlockN_queued b n s1 htree1 hqany1
  have hfinal2 : (addBlockN (n + 1) s b).2 = 0 := by
    rw [addBlockN]
    simp only [hstep1]
    simp [hrest.1]
  have hfinalState : (addBlockN (n + 1) s b).1 = (addBlockN n s1 b).1 := by
    rw [addBlockN]
    simp [hstep1]
  have hqfin : (addBlockN (n + 1) s b).1.blocksToAdd.countP
      (fun x => x.hash == b.hash) = 1 := by
    rw [hfinalState, hrest.2.1, hq1]
  have hhfin : handlersCount (addBlockN (n + 1) s b).1.handlers b.hash = n + 1 := by
    rw [hfinalState, hrest.2.2.2, hh1]
    omega
  refine ⟨hfinal2, hqfin, hhfin, ?_, ?_, ?_, ?_⟩
  · -- exactly one `add` event for this hash in the insertion's event list
    unfold insertBlock
    simp only
    rw [List.countP_cons, List.countP_append, countP_add_walk, countP_add_flush]
    simp [fromBlock]
  · unfold insertBlock
    simpa [fromBlock] using hhfin
  · unfold insertBlock
    simp only [fromBlock]
    rw [handlersCount_handlersDelete]
  · intro s2 htree2
    have hone : addBlock s2 b = (s2, true) := by
      unfold addBlock queueBlock fromBlock
      simp [htree2]
    clear hfinal2 hfinalState hqfin hhfin hrest
    induction n with
    | zero => rw [addBlockN, addBlockN]; simp [hone]
    | succ k ih =>
      rw [addBlockN]
      simp only [hone]
      rw [show addBlockN (k + 1) s2 b = (s2, k + 1) from ih (by omega)]
      simp
      omega

def blk4 : Block := ⟨"a", "p", 1, 0, ""⟩

theorem addBlock_idempotent_witness :
    handlersCount (addBlockN 3 initialState blk4).1.handlers "a" = 3 ∧
    (insertBlock cfg2 (addBlockN 3 initialState blk4).1 (fromBlock blk4)).2.2 = 3 :=
  ⟨(addBlock_idempotent cfg2 initialState blk4 3 (by decide) (by decide) (by decide)
      (by decide)).2.2.1,
   (addBlock_idempotent cfg2 initialState blk4 3 (by decide) (by decide) (by decide)
      (by decide)).2.2.2.2.1⟩

/-! ## Claim C9: `add` precedes the other events for a hash -/

/-- A hash was introduced somewhere in a log: an `add` event for it was
emitted, or a snapshot restore silently brought it in. -/
def hashIntroduced (l : List LogEntry) (h : String) : Prop :=
  ∃ b : Block, (LogEntry.ev (Event.add b) ∈ l ∨ LogEntry.restored b ∈ l) ∧ b.hash = h

theorem hashIntroduced_mono {l l' : List LogEntry} {h : String}
    (hi : hashIntroduced l h) : hashIntroduced (l ++ l') h := by
  rcases hi with ⟨b, hb | hb, hh⟩
  · exact ⟨b, Or.inl (List.mem_append.mpr (Or.inl hb)), hh⟩
  · exact ⟨b, Or.inr (List.mem_append.mpr (Or.inl hb)), hh⟩

/-- Every `confirm`/`rollback` entry of the log `l` concerns a hash already
introduced in `acc` extended by the entries of `l` before it. -/
def okLog (acc l : List LogEntry) : Prop :=
  ∀ pre (b : Block) post (entry : LogEntry),
    (entry = LogEntry.ev (Event.confirm b) ∨ entry = LogEntry.ev (Event.rollback b)) →
    l = pre ++ entry :: post →
    hashIntroduced (acc ++ pre) b.hash

theorem okLog_nil (acc : List LogEntry) : okLog acc [] := by
  intro pre b post entry _ hsplit
  exact absurd hsplit (by simp)

theorem okLog_append {acc l1 l2 : List LogEntry}
    (h1 : okLog acc l1) (h2 : okLog (acc ++ l1) l2) : okLog acc (l1 ++ l2) := by
  intro pre b post entry hent hsplit
  have heq : pre ++ entry :: post = l1 ++ l2 := hsplit.symm
  rcases List.append_eq_append_iff.mp heq with ⟨a', ha1, ha2⟩ | ⟨c', hc1, hc2⟩
  · rcases a' with _ | ⟨e2, a''⟩
    · have hl2 : l2 = entry :: post := by simpa using ha2.symm
      have hpre : l1 = pre := by simpa using ha1
      have := h2 [] b post entry hent (by simpa using hl2)
      simpa [hpre] using this
    · rw [List.cons_append] at ha2
      injection ha2 with he2 hpost
      exact h1 pre b a'' entry hent (by rw [ha1, he2])
  · have hres := h2 c' b post entry hent hc2
    rwa [List.append_assoc, ← hc1] at hres

theorem treeHas_eq_any_map (t : List Block) (x : String) :
    treeHas t x = (t.map (fun b => b.hash)).any (fun s => s == x) := by
  unfold treeHas
  induction t with
  | nil => rfl
  | cons y ys ih => simp only [List.map_cons, List.any_cons, ih]

theorem treeHas_congr {t t' : List Block}
    (h : t.map (fun b => b.hash) = t'.map (fun b => b.hash)) (x : String) :
    treeHas t x = treeHas t' x := by
  rw [treeHas_eq_any_map, treeHas_eq_any_map, h]

theorem mem_hash_treeHas {t : List Block} {p : Block} (hp : p ∈ t) :
    treeHas t p.hash = true :=
  List.any_eq_true.mpr ⟨p, hp, by simp⟩

/-- The ancestor walk updates blocks in place, so the list of keys (and the
iteration order) of the tree is unchanged. -/
theorem walkAncestors_map_hash (numConfirmations : Int) :
    ∀ (fuel : Nat) (t : List Block) (op : Option Block) (d : Int),
      (∀ p, op = some p → p ∈ t) →
      ((walkAncestors numConfirmations fuel t op d).1).map (fun b => b.hash) =
        t.map (fun b => b.hash)
  | 0, t, op, d, _ => rfl
  | _ + 1, t, none, d, _ => rfl
  | fuel + 1, t, some parent, d, hmem => by
    rw [walkAncestors]
    split
    · simp only
      have hpmem : parent ∈ t := hmem parent rfl
      have hany : t.any
          (fun x => x.hash == ({ parent with childDepth := d } : Block).hash) = true :=
        List.any_eq_true.mpr ⟨parent, hpmem, by simp⟩
      rw [walkAncestors_map_hash numConfirmations fuel
        (treeSet t { parent with childDepth := d })
        (treeGet (treeSet t { parent with childDepth := d }) parent.parentHash)
        (d + 1) (fun p hp => treeGet_mem hp)]
      exact treeSet_map_hash hany
    · rfl

/-- Every block confirmed by the walk was already present (by hash) in the
tree the walk started from. -/
theorem walkAncestors_confirm_has (numConfirmations : Int) :
    ∀ (fuel : Nat) (t : List Block) (op : Option Block) (d : Int),
      (∀ p, op = some p → p ∈ t) →
      ∀ c, Event.confirm c ∈ (walkAncestors numConfirmations fuel t op d).2 →
        treeHas t c.hash = true
  | 0, t, op, d, _, c, hc => by simp [walkAncestors] at hc
  | _ + 1, t, none, d, _, c, hc => by simp [walkAncestors] at hc
  | fuel + 1, t, some parent, d, hmem, c, hc => by
    rw [walkAncestors] at hc
    split at hc
    · simp only [List.mem_append] at hc
      rcases hc with hc | hc
      · split at hc
        · have hcp : c = parent := by
            have := List.mem_singleton.mp hc
            injection this
          subst hcp
          exact mem_hash_treeHas (hmem c rfl)
        · simp at hc
      · have hpmem : parent ∈ t := hmem parent rfl
        have hany : t.any
            (fun x => x.hash == ({ parent with childDepth := d } : Block).hash) = true :=
          List.any_eq_true.mpr ⟨parent, hpmem, by simp⟩
        have hrec := walkAncestors_confirm_has numConfirmations fuel
          (treeSet t { parent with childDepth := d })
          (treeGet (treeSet t { parent with childDepth := d }) parent.parentHash)
          (d + 1) (fun p hp => treeGet_mem hp) c hc
        rwa [treeHas_congr (treeSet_map_hash hany)] at hrec
    · simp at hc

theorem flush_rollback_mem (cfg : Config) (t : List Block) :
    ∀ c, Event.rollback c ∈ (flushFlushableBlocks cfg t).2 → c ∈ t := by
  intro c hc
  rw [flushFlushableBlocks_snd] at hc
  rcases List.mem_map.mp hc with ⟨x, hx, hxe⟩
  have hxc : x = c := by injection hxe
  subst hxc
  exact List.mem_of_mem_filter (List.mem_of_mem_filter hx)

theorem flush_fst_subset (cfg : Config) (t : List Block) :
    ∀ x ∈ (flushFlushableBlocks cfg t).1, x ∈ t := by
  intro x hx
  unfold flushFlushableBlocks at hx
  rw [flushLoop_fst] at hx
  exact List.mem_of_mem_filter hx

theorem mem_foldl_treeSet :
    ∀ (snapshot acc : List Block) (x : Block),
      x ∈ snapshot.foldl treeSet acc → x ∈ acc ∨ x ∈ snapshot
  | [], acc, x, hx => Or.inl hx
  | b :: rest, acc, x, hx => by
    rcases mem_foldl_treeSet rest (treeSet acc b) x hx with hmem | hmem
    · rcases mem_treeSet hmem with hmem2 | hmem2
      · exact Or.inl hmem2
      · exact Or.inr (hmem2 ▸ List.mem_cons_self _ _)
    · exact Or.inr (List.mem_cons_of_mem _ hmem)

/-- One engine step only emits `confirm`/`rollback` for hashes already
introduced, and every block of the resulting tree is introduced in the log so
far. -/
theorem stepOp_ok (cfg : Config) (s : EngineState) (op : Op) (acc : List LogEntry)
    (hInv : ∀ x ∈ s.tree, hashIntroduced acc x.hash) :
    okLog acc (stepOp cfg s op).2 ∧
    (∀ x ∈ (stepOp cfg s op).1.tree,
      hashIntroduced (acc ++ (stepOp cfg s op).2) x.hash) := by
  cases op with
  | restore snapshot =>
    constructor
    · intro pre b post entry hent hsplit
      have hmem : entry ∈ snapshot.map LogEntry.restored := by
        rw [show (stepOp cfg s (Op.restore snapshot)).2 = snapshot.map LogEntry.restored
          from rfl] at hsplit
        rw [hsplit]
        exact List.mem_append.mpr (Or.inr (List.mem_cons_self _ _))
      rcases List.mem_map.mp hmem with ⟨y, _, hy⟩
      rcases hent with rfl | rfl <;> exact absurd hy (by simp)
    · intro x hx
      have hx' : x ∈ (restoreFromSnapshot s snapshot).tree := hx
      rw [restoreFromSnapshot_tree] at hx'
      rcases mem_foldl_treeSet snapshot s.tree x hx' with hmem | hmem
      · exact hashIntroduced_mono (hInv x hmem)
      · exact ⟨x, Or.inr (List.mem_append.mpr
          (Or.inr (List.mem_map.mpr ⟨x, hmem, rfl⟩))), rfl⟩
  | insert b =>
    by_cases hhas : treeHas s.tree b.hash = true
    · have hstep : stepOp cfg s (Op.insert b) = (s, []) := by
        simp only [stepOp]
        rw [if_pos hhas]
      rw [hstep]
      exact ⟨okLog_nil acc, fun x hx => hashIntroduced_mono (hInv x hx)⟩
    · have hhasf : treeHas s.tree b.hash = false := by
        rw [Bool.eq_false_iff]; exact hhas
      have hstep : stepOp cfg s (Op.insert b) =
          ((insertBlock cfg s b).1, (insertBlock cfg s b).2.1.map LogEntry.ev) := by
        simp only [stepOp]
        rw [if_neg (by simp [hhasf])]
      -- names for the intermediate trees of `insertBlock`
      set b0 : Block := { b with childDepth := 0 } with hb0
      set t1 : List Block := treeSet s.tree b0 with ht1
      set wOut := walkAncestors cfg.numConfirmations t1.length t1
        (treeGet t1 b0.parentHash) 1 with hwOut
      set fOut := flushFlushableBlocks cfg wOut.1 with hfOut
      have hins1 : (insertBlock cfg s b).1.tree = fOut.1 := rfl
      have hins2 : (insertBlock cfg s b).2.1 =
          Event.add b :: (wOut.2 ++ fOut.2) := rfl
      have ht1app : t1 = s.tree ++ [b0] := by
        rw [ht1]
        apply treeSet_of_absent
        rw [← Bool.not_eq_true]
        intro hc
        rcases List.any_eq_true.mp hc with ⟨x, hx, hxb⟩
        rw [Bool.eq_false_iff] at hhasf
        exact hhasf (List.any_eq_true.mpr ⟨x, hx, by simpa using hxb⟩)
      have hdom : wOut.1.map (fun x => x.hash) = t1.map (fun x => x.hash) := by
        rw [hwOut]
        exact walkAncestors_map_hash cfg.numConfirmations t1.length t1
          (treeGet t1 b0.parentHash) 1 (fun p hp => treeGet_mem hp)
      -- a hash present in t1 is either an old tree hash or the new block's
      have hsplit1 : ∀ h : String, treeHas t1 h = true →
          treeHas s.tree h = true ∨ h = b.hash := by
        intro h hh
        rw [ht1app] at hh
        rcases List.any_eq_true.mp hh with ⟨x, hx, hxh⟩
        rcases List.mem_append.mp hx with hx | hx
        · exact Or.inl (List.any_eq_true.mpr ⟨x, hx, hxh⟩)
        · right
          have hxb : x = b0 := by simpa using hx
          rw [hxb] at hxh
          have hbh : b0.hash = h := by simpa using hxh
          rw [← hbh, hb0]
      have hintro1 : ∀ h : String, treeHas t1 h = true →
          hashIntroduced (acc ++ [LogEntry.ev (Event.add b)]) h := by
        intro h hh
        rcases hsplit1 h hh with hold | rfl
        · rcases (treeHas_iff).mp hold with ⟨x, hx, hxh⟩
          rw [← hxh]
          exact hashIntroduced_mono (hInv x hx)
        · exact ⟨b, Or.inl (List.mem_append.mpr (Or.inr (List.mem_singleton.mpr rfl))),
            rfl⟩
      constructor
      · -- the step's log entries
        intro pre c post entry hent hsplitlog
        rw [hstep] at hsplitlog
        simp only at hsplitlog
        rw [hins2, List.map_cons] at hsplitlog
        rcases pre with _ | ⟨e0, pre'⟩
        · -- the first entry is the `add`; it cannot be a confirm/rollback
          rw [List.nil_append] at hsplitlog
          injection hsplitlog with h1 h2
          rcases hent with rfl | rfl <;> simp at h1
        · rw [List.cons_append] at hsplitlog
          injection hsplitlog with h1 h2
          -- h2 : map ev (walk ++ flush) = pre' ++ entry :: post
          have hementry : entry ∈ (wOut.2 ++ fOut.2).map LogEntry.ev := by
            rw [h2]
            exact List.mem_append.mpr (Or.inr (List.mem_cons_self _ _))
          rcases List.mem_map.mp hementry with ⟨e, he, hee⟩
          have hintro : hashIntroduced (acc ++ [LogEntry.ev (Event.add b)]) c.hash := by
            rcases hent with rfl | rfl
            · -- a confirm: it comes from the walk
              have heq : e = Event.confirm c := by
                injection hee
              subst heq
              rcases List.mem_append.mp he with hw | hf
              · apply hintro1
                rw [hwOut] at hw
                exact walkAncestors_confirm_has cfg.numConfirmations t1.length t1
                  (treeGet t1 b0.parentHash) 1 (fun p hp => treeGet_mem hp) c hw
              · rcases flush_events_rollback cfg wOut.1 _ hf with ⟨x, hx⟩
                simp at hx
            · -- a rollback: it comes from the pruner
              have heq : e = Event.rollback c := by
                injection hee
              subst heq
              rcases List.mem_append.mp he with hw | hf
              · rcases walkAncestors_events_confirm cfg.numConfirmations t1.length t1
                  (treeGet t1 b0.parentHash) 1 _ hw with ⟨x, hx⟩
                simp at hx
              · have hmem2 : c ∈ wOut.1 := flush_rollback_mem cfg wOut.1 c hf
                apply hintro1
                rw [← treeHas_congr hdom]
                exact mem_hash_treeHas hmem2
          have hres := @hashIntroduced_mono _ pre' _ hintro
          rw [List.append_assoc] at hres
          rw [← h1]
          simpa using hres
      · -- the resulting tree
        intro x hx
        rw [hstep] at hx ⊢
        simp only at hx ⊢
        rw [hins1] at hx
        have hx2 : x ∈ wOut.1 := flush_fst_subset cfg wOut.1 x (by rw [← hfOut]; exact hx)
        have hhash : treeHas t1 x.hash = true := by
          rw [← treeHas_congr hdom]
          exact mem_hash_treeHas hx2
        have := hintro1 x.hash hhash
        have hres := @hashIntroduced_mono _ ((wOut.2 ++ fOut.2).map LogEntry.ev) _ this
        rw [List.append_assoc] at hres
        rw [hins2, List.map_cons]
        simpa using hres

theorem runOps_ok (cfg : Config) :
    ∀ (ops : List Op) (s : EngineState) (acc : List LogEntry),
      (∀ x ∈ s.tree, hashIntroduced acc x.hash) →
      okLog acc (runOps cfg s ops).2
  | [], s, acc, _ => okLog_nil acc
  | op :: rest, s, acc, hInv => by
    rw [runOps]
    simp only
    exact okLog_append (stepOp_ok cfg s op acc hInv).1
      (runOps_ok cfg rest (stepOp cfg s op).1 (acc ++ (stepOp cfg s op).2)
        (stepOp_ok cfg s op acc hInv).2)

/-- C9, amended. In every engine run, each `confirm(B)` or `rollback(B)` is
preceded by an introduction of `B.hash`: either an `add` event for that hash,
or a `restoreFromSnapshot` that silently brought the block in. The original
claim — `add(B)` itself precedes every event mentioning `B` — fails for
snapshot-restored blocks, which are confirmed or rolled back without ever
being `add`-ed. -/
theorem add_precedes_events (cfg : Config) (ops : List Op) (pre : List LogEntry)
    (b : Block) (post : List LogEntry)
    (hsplit :
      (runOps cfg initialState ops).2 = pre ++ LogEntry.ev (Event.confirm b) :: post ∨
      (runOps cfg initialState ops).2 = pre ++ LogEntry.ev (Event.rollback b) :: post) :
    hashIntroduced pre b.hash := by
  have h0 : ∀ x ∈ initialState.tree, hashIntroduced ([] : List LogEntry) x.hash := by
    intro x hx
    exact absurd hx (List.not_mem_nil x)
  have hok := runOps_ok cfg ops initialState [] h0
  rcases hsplit with h | h
  · have := hok pre b post _ (Or.inl rfl) h
    simpa using this
  · have := hok pre b post _ (Or.inr rfl) h
    simpa using this

def cfg9 : Config := ⟨2, 12⟩

def blkA9 : Block := ⟨"a", "h0", 1, 0, ""⟩
def blkB9 : Block := ⟨"b", "a", 2, 0, ""⟩
def blkC9 : Block := ⟨"c", "b", 3, 0, ""⟩

def ops9 : List Op := [Op.restore [blkA9], Op.insert blkB9, Op.insert blkC9]

/-- C9, counterexample. An engine started `fromSnapshot` confirms the
restored anchor without ever emitting `add` for it: the run emits exactly one
`confirm` for hash `"a"` and no `add` for `"a"` at all, so no `add("a")`
precedes it. -/
theorem add_precedes_events_counterexample :
    (emittedEvents (runOps cfg9 initialState ops9).2).countP
      (fun e => match e with | Event.confirm c => c.hash == "a" | _ => false) = 1 ∧
    (emittedEvents (runOps cfg9 initialState ops9).2).countP
      (fun e => match e with | Event.add c => c.hash == "a" | _ => false) = 0 := by
  constructor
  · rfl
  · rfl

theorem add_precedes_events_witness :
    hashIntroduced
      [LogEntry.restored blkA9, LogEntry.ev (Event.add blkB9),
        LogEntry.ev (Event.add blkC9)] "a" := by
  have h := add_precedes_events cfg9 ops9
    [LogEntry.restored blkA9, LogEntry.ev (Event.add blkB9),
      LogEntry.ev (Event.add blkC9)]
    ⟨"a", "h0", 1, 1, ""⟩ [] (Or.inl (by rfl))
  exact h

/-! ## Claim C1: `confirm` is emitted at most once per hash

The counterexample below shows the claim fails as stated: a mid-life
`restoreFromSnapshot` (a public method) overwrites a confirmed block's
`childDepth` with the snapshot's older value, after which a fresh branch
re-walks the ancestor chain and emits `confirm` for the same hash a second
time.  The amended claim restricts runs to those whose `restore` (if any) is
the initial anchor, with well-formed blocks. -/

/-- Number of `confirm` events carrying the given hash. -/
def confirmCount (evs : List Event) (h : String) : Nat :=
  evs.countP (fun e => match e with | Event.confirm c => c.hash == h | _ => false)

def cfg1 : Config := ⟨2, 12⟩

def blkA1 : Block := ⟨"a", "h0", 1, 0, ""⟩
def blkB1 : Block := ⟨"b", "a", 2, 0, ""⟩
def blkC1 : Block := ⟨"c", "b", 3, 0, ""⟩
def blkD1 : Block := ⟨"d", "a", 2, 0, ""⟩
def blkE1 : Block := ⟨"e", "d", 3, 0, ""⟩

def ops1 : List Op :=
  [Op.restore [blkA1], Op.insert blkB1, Op.insert blkC1,
   Op.restore [blkA1], Op.insert blkD1, Op.insert blkE1]

/-- C1, counterexample. With `numConfirmations = 2`, `streamSize = 12` (a
valid configuration) and honest blocks, the run that anchors on snapshot
`[A]`, inserts children `B, C` (confirming `A`), restores the stale snapshot
`[A]` again — resetting `A.childDepth` to `0` — and then inserts a second
branch `D, E`, emits `confirm` for hash `"a"` twice in one engine
lifetime. -/
theorem confirm_once_counterexample :
    confirmCount (emittedEvents (runOps cfg1 initialState ops1).2) "a" = 2 := by
  rfl

/-! Well-formedness of a run, for the amended claim: a positive confirmation
depth and a non-negative window; at most an initial `restore`; every block
mentioned by the run has non-negative `number` and `childDepth`; equal hashes
carry equal numbers; and a block's claimed parent always has a strictly
smaller number (true of real chains, and exactly what makes the source's
unbounded ancestor walk terminate). -/

def mentionedBlocks : List Op → List Block
  | [] => []
  | Op.insert b :: rest => b :: mentionedBlocks rest
  | Op.restore snapshot :: rest => snapshot ++ mentionedBlocks rest

def pairOk (a c : Block) : Bool :=
  (a.hash != c.hash || decide (a.number = c.number)) &&
  (c.parentHash != a.hash || decide (a.number < c.number))

def blockOk (b : Block) : Bool :=
  decide (0 ≤ b.number) && decide (0 ≤ b.childDepth)

def noRestore (ops : List Op) : Bool :=
  ops.all (fun op => match op with | Op.insert _ => true | Op.restore _ => false)

def opsShapeOk : List Op → Bool
  | [] => true
  | _ :: rest => noRestore rest

def wellFormedOps (cfg : Config) (ops : List Op) : Bool :=
  decide (1 ≤ cfg.numConfirmations) && decide (0 ≤ cfg.streamSize) &&
  opsShapeOk ops && (mentionedBlocks ops).all blockOk &&
  (mentionedBlocks ops).all (fun a => (mentionedBlocks ops).all (fun c => pairOk a c))

/-- Block numbers strictly increase from parent to child inside the tree. -/
def ParentConsistent (t : List Block) : Prop :=
  ∀ p ∈ t, ∀ c ∈ t, p.hash = c.parentHash → p.number < c.number

theorem parentConsistent_of_strip {t t' : List Block}
    (hstrip : ∀ x ∈ t', ∃ y ∈ t,
      y.hash = x.hash ∧ y.parentHash = x.parentHash ∧ y.number = x.number)
    (hp : ParentConsistent t) : ParentConsistent t' := by
  intro p hpmem c hcmem hhash
  rcases hstrip p hpmem with ⟨yp, hyp, h1, h2, h3⟩
  rcases hstrip c hcmem with ⟨yc, hyc, g1, g2, g3⟩
  have := hp yp hyp yc hyc (by rw [h1, g2]; exact hhash)
  omega

theorem nodup_hash_eq {t : List Block} (hn : nodupKeys t) {x y : Block}
    (hx : x ∈ t) (hy : y ∈ t) (h : x.hash = y.hash) : x = y :=
  List.inj_on_of_nodup_map hn hx hy h

theorem treeGet_unique {t : List Block} (hn : nodupKeys t) {h : String} {x y : Block}
    (hget : treeGet t h = some x) (hy : y ∈ t) (hhash : y.hash = h) : y = x :=
  nodup_hash_eq hn hy (treeGet_mem hget) (by rw [hhash, treeGet_hash hget])

theorem mem_treeGet {t : List Block} (hn : nodupKeys t) {x : Block} (hx : x ∈ t) :
    treeGet t x.hash = some x := by
  rcases hfind : treeGet t x.hash with _ | y
  · rw [treeGet_eq_none_iff] at hfind
    exact absurd rfl (hfind x hx)
  · rw [treeGet_unique hn hfind hx rfl]

theorem treeGet_none_congr {t t' : List Block}
    (h : t.map (fun b => b.hash) = t'.map (fun b => b.hash)) {x : String}
    (hx : treeGet t x = none) : treeGet t' x = none := by
  rw [treeGet_eq_none_iff] at hx ⊢
  intro y hy hyx
  have hmem : y.hash ∈ t'.map (fun b => b.hash) := List.mem_map.mpr ⟨y, hy, rfl⟩
  rw [← h] at hmem
  rcases List.mem_map.mp hmem with ⟨z, hz, hzy⟩
  exact hx z hz (by rw [hzy, hyx])

/-- What one ancestor walk (`walkAncestors numConf _ t op d`, producing tree
`t'` and events `evs`) guarantees on a key-unique, parent-consistent tree. -/
structure WalkSpec (numConf : Int) (t : List Block) (op : Option Block) (d : Int)
    (t' : List Block) (evs : List Event) : Prop where
  get : ∀ h x', treeGet t' h = some x' → ∃ x, treeGet t h = some x ∧
    x'.hash = x.hash ∧ x'.parentHash = x.parentHash ∧ x'.number = x.number ∧
    x.childDepth ≤ x'.childDepth
  confirms : ∀ c, Event.confirm c ∈ evs → treeGet t c.hash = some c ∧
    c.childDepth < numConf ∧ treeGet t' c.hash = some { c with childDepth := numConf }
  confirmBound : ∀ c, Event.confirm c ∈ evs → d ≤ numConf
  confirmNum : ∀ c, Event.confirm c ∈ evs → ∀ p, op = some p → c.number ≤ p.number
  untouched : ∀ h x, treeGet t h = some x →
    (∀ p, op = some p → p.number < x.number) → treeGet t' h = some x
  count : evs.countP (fun e => match e with | Event.confirm _ => true | _ => false) ≤ 1

theorem walkSpec_id (numConf : Int) (t : List Block) (op : Option Block) (d : Int) :
    WalkSpec numConf t op d t [] := by
  refine ⟨?_, ?_, ?_, ?_, ?_, ?_⟩
  · intro h x' hx'
    exact ⟨x', hx', rfl, rfl, rfl, le_refl _⟩
  · intro c hc
    simp at hc
  · intro c hc
    simp at hc
  · intro c hc
    simp at hc
  · intro h x hx _
    exact hx
  · simp

theorem walkAncestors_none (numConf : Int) (fuel : Nat) (t : List Block) (d : Int) :
    walkAncestors numConf fuel t none d = (t, []) := by
  cases fuel <;> rfl

theorem walkAncestors_spec (numConf : Int) :
    ∀ (fuel : Nat) (t : List Block) (op : Option Block) (d : Int),
      nodupKeys t → ParentConsistent t →
      (∀ p, op = some p → treeGet t p.hash = some p) →
      WalkSpec numConf t op d (walkAncestors numConf fuel t op d).1
        (walkAncestors numConf fuel t op d).2
  | 0, t, op, d, _, _, _ => by
    rw [show walkAncestors numConf 0 t op d = (t, []) from rfl]
    exact walkSpec_id numConf t op d
  | fuel + 1, t, none, d, _, _, _ => by
    rw [walkAncestors_none]
    exact walkSpec_id numConf t none d
  | fuel + 1, t, some parent, d, hnodup, hPC, hmem => by
    by_cases hguard : parent.childDepth < d
    case neg =>
      have heq : walkAncestors numConf (fuel + 1) t (some parent) d = (t, []) := by
        rw [walkAncestors, if_neg hguard]
      rw [heq]
      exact walkSpec_id numConf t (some parent) d
    case pos =>
      have hpget : treeGet t parent.hash = some parent := hmem parent rfl
      have hpmem : parent ∈ t := treeGet_mem hpget
      set b' : Block := { parent with childDepth := d } with hb'
      set t1 : List Block := treeSet t b' with ht1
      have heq : walkAncestors numConf (fuel + 1) t (some parent) d =
          ((walkAncestors numConf fuel t1 (treeGet t1 parent.parentHash) (d + 1)).1,
            (if d = numConf then [Event.confirm parent] else []) ++
              (walkAncestors numConf fuel t1 (treeGet t1 parent.parentHash) (d + 1)).2) := by
        rw [walkAncestors, if_pos hguard]
      have hb'get : treeGet t1 parent.hash = some b' := treeGet_treeSet_self t b'
      have hb'mem : b' ∈ t1 := treeGet_mem hb'get
      have hnodup1 : nodupKeys t1 := nodupKeys_treeSet hnodup
      have hstrip1 : ∀ x ∈ t1, ∃ y ∈ t,
          y.hash = x.hash ∧ y.parentHash = x.parentHash ∧ y.number = x.number := by
        intro x hx
        rcases mem_treeSet hx with hmem2 | rfl
        · exact ⟨x, hmem2, rfl, rfl, rfl⟩
        · exact ⟨parent, hpmem, rfl, rfl, rfl⟩
      have hPC1 : ParentConsistent t1 := parentConsistent_of_strip hstrip1 hPC
      have hcondNext : ∀ p, treeGet t1 parent.parentHash = some p →
          p.number < parent.number := by
        intro np hnp
        have hnpmem : np ∈ t1 := treeGet_mem hnp
        have hnphash : np.hash = parent.parentHash := treeGet_hash hnp
        exact hPC1 np hnpmem b' hb'mem (by rw [hnphash])
      have hmem1 : ∀ p, treeGet t1 parent.parentHash = some p →
          treeGet t1 p.hash = some p :=
        fun p hp => treeGet_self hp
      have spec_rec := walkAncestors_spec numConf fuel t1
        (treeGet t1 parent.parentHash) (d + 1) hnodup1 hPC1 hmem1
      rw [heq]
      have hlift : ∀ (h : String) (x1 : Block), treeGet t1 h = some x1 →
          ∃ x, treeGet t h = some x ∧ x1.hash = x.hash ∧
            x1.parentHash = x.parentHash ∧ x1.number = x.number ∧
            x.childDepth ≤ x1.childDepth := by
        intro h x1 hx1
        by_cases hh : h = parent.hash
        · subst hh
          have hx1b : x1 = b' := by
            have := hb'get.symm.trans hx1
            exact (Option.some.inj this).symm
          subst hx1b
          exact ⟨parent, hpget, rfl, rfl, rfl, le_of_lt hguard⟩
        · rw [treeGet_treeSet_ne t b' hh] at hx1
          exact ⟨x1, hx1, rfl, rfl, rfl, le_refl _⟩
      have hsetne : ∀ (h : String) (x : Block), treeGet t h = some x →
          parent.number < x.number → treeGet t1 h = some x := by
        intro h x hx hlt
        have hh : h ≠ parent.hash := by
          intro hcontra
          subst hcontra
          have hxp : parent = x := Option.some.inj (hpget.symm.trans hx)
          rw [← hxp] at hlt
          exact absurd hlt (lt_irrefl _)
        rw [treeGet_treeSet_ne t b' hh]
        exact hx
      have hrecnum : ∀ c, Event.confirm c ∈
          (walkAncestors numConf fuel t1 (treeGet t1 parent.parentHash) (d + 1)).2 →
          c.number < parent.number := by
        intro c hc
        rcases hnext : treeGet t1 parent.parentHash with _ | np
        · rw [hnext, walkAncestors_none] at hc
          simp at hc
        · have h1 := spec_rec.confirmNum c hc np hnext
          have h2 := hcondNext np hnext
          omega
      have hrecget : ∀ c, Event.confirm c ∈
          (walkAncestors numConf fuel t1 (treeGet t1 parent.parentHash) (d + 1)).2 →
          treeGet t c.hash = some c := by
        intro c hc
        have hg1 := (spec_rec.confirms c hc).1
        have hcnum := hrecnum c hc
        have hch : c.hash ≠ parent.hash := by
          intro hcontra
          rw [hcontra] at hg1
          have hcb : c = b' := (Option.some.inj (hb'get.symm.trans hg1)).symm
          rw [hcb] at hcnum
          exact absurd hcnum (lt_irrefl _)
        rw [← treeGet_treeSet_ne t b' hch]
        exact hg1
      refine ⟨?_, ?_, ?_, ?_, ?_, ?_⟩
      · intro h x' hx'
        rcases spec_rec.get h x' hx' with ⟨x1, hx1, e1, e2, e3, e4⟩
        rcases hlift h x1 hx1 with ⟨x, hx, f1, f2, f3, f4⟩
        exact ⟨x, hx, e1.trans f1, e2.trans f2, e3.trans f3, le_trans f4 e4⟩
      · intro c hc
        rcases List.mem_append.mp hc with hc | hc
        · by_cases hd : d = numConf
          · subst hd
            rw [if_pos rfl] at hc
            have hcp : c = parent := by
              have := List.mem_singleton.mp hc
              injection this
            subst hcp
            refine ⟨hpget, hguard, ?_⟩
            exact spec_rec.untouched c.hash b' hb'get hcondNext
          · rw [if_neg hd] at hc
            simp at hc
        · exact ⟨hrecget c hc, (spec_rec.confirms c hc).2.1,
            (spec_rec.confirms c hc).2.2⟩
      · intro c hc
        rcases List.mem_append.mp hc with hc | hc
        · by_cases hd : d = numConf
          · exact le_of_eq hd
          · rw [if_neg hd] at hc
            simp at hc
        · have := spec_rec.confirmBound c hc
          omega
      · intro c hc p hp
        have hpp : parent = p := by injection hp
        subst hpp
        rcases List.mem_append.mp hc with hc | hc
        · by_cases hd : d = numConf
          · subst hd
            rw [if_pos rfl] at hc
            have hcp : c = parent := by
              have := List.mem_singleton.mp hc
              injection this
            rw [hcp]
          · rw [if_neg hd] at hc
            simp at hc
        · exact le_of_lt (hrecnum c hc)
      · intro h x hx hcond
        have hlt : parent.number < x.number := hcond parent rfl
        have hx1 : treeGet t1 h = some x := hsetne h x hx hlt
        apply spec_rec.untouched h x hx1
        intro p hp
        have := hcondNext p hp
        omega
      · rw [List.countP_append]
        by_cases hd : d = numConf
        · rw [if_pos hd]
          have hz : (walkAncestors numConf fuel t1
              (treeGet t1 parent.parentHash) (d + 1)).2.countP
              (fun e => match e with | Event.confirm _ => true | _ => false) = 0 := by
            rw [List.countP_eq_zero]
            intro e he
            cases e with
            | confirm c =>
              have := spec_rec.confirmBound c he
              omega
            | add c => simp
            | rollback c => simp
          rw [hz]
          simp
        · rw [if_neg hd]
          simp only [List.countP_nil, Nat.zero_add]
          exact spec_rec.count

theorem treeSet_map_number {t : List Block} {b p : Block} (hn : nodupKeys t)
    (hget : treeGet t b.hash = some p) (hnum : b.number = p.number) :
    (treeSet t b).map (fun x => x.number) = t.map (fun x => x.number) := by
  have hpmem : p ∈ t := treeGet_mem hget
  have hphash : p.hash = b.hash := treeGet_hash hget
  have hany : t.any (fun x => x.hash == b.hash) = true :=
    List.any_eq_true.mpr ⟨p, hpmem, by simp [hphash]⟩
  unfold treeSet
  rw [if_pos hany, List.map_map]
  apply List.map_congr_left
  intro x hx
  by_cases hxh : (x.hash == b.hash) = true
  · have hxp : x = p := treeGet_unique hn hget hx (by simpa using hxh)
    simp only [Function.comp_apply, if_pos hxh]
    rw [hxp]
    exact hnum
  · simp [Function.comp, hxh]

theorem walkAncestors_map_number (numConf : Int) :
    ∀ (fuel : Nat) (t : List Block) (op : Option Block) (d : Int),
      nodupKeys t → (∀ p, op = some p → treeGet t p.hash = some p) →
      ((walkAncestors numConf fuel t op d).1).map (fun x => x.number) =
        t.map (fun x => x.number)
  | 0, t, op, d, _, _ => rfl
  | _ + 1, t, none, d, _, _ => rfl
  | fuel + 1, t, some parent, d, hn, hmem => by
    by_cases hguard : parent.childDepth < d
    · have heq : (walkAncestors numConf (fuel + 1) t (some parent) d).1 =
          (walkAncestors numConf fuel (treeSet t { parent with childDepth := d })
            (treeGet (treeSet t { parent with childDepth := d }) parent.parentHash)
            (d + 1)).1 := by
        rw [walkAncestors, if_pos hguard]
      rw [heq]
      have hget : treeGet t parent.hash = some parent := hmem parent rfl
      have hset : (treeSet t { parent with childDepth := d }).map (fun x => x.number) =
          t.map (fun x => x.number) :=
        treeSet_map_number hn hget rfl
      rw [walkAncestors_map_number numConf fuel
        (treeSet t { parent with childDepth := d })
        (treeGet (treeSet t { parent with childDepth := d }) parent.parentHash)
        (d + 1) (nodupKeys_treeSet hn) (fun p hp => treeGet_self hp), hset]
    · have heq : walkAncestors numConf (fuel + 1) t (some parent) d = (t, []) := by
        rw [walkAncestors, if_neg hguard]
      rw [heq]

theorem nodupKeys_congr {t t' : List Block}
    (h : t.map (fun b => b.hash) = t'.map (fun b => b.hash)) (hn : nodupKeys t) :
    nodupKeys t' := by
  unfold nodupKeys at *
  rwa [h] at hn

theorem nodupKeys_filter (q : Block → Bool) {t : List Block} (hn : nodupKeys t) :
    nodupKeys (t.filter q) := by
  unfold nodupKeys at *
  exact ((List.filter_sublist t).map (fun b => b.hash)).nodup hn

/-- With non-negative numbers, depths and window parameters, a pruner pass
keeps a block achieving the tree's maximum number, so the recomputed maximum
is unchanged. -/
theorem treeMaxNumber_flush (cfg : Config) {t : List Block} (hn : nodupKeys t)
    (hnum : ∀ b ∈ t, 0 ≤ b.number) (hcd : ∀ b ∈ t, 0 ≤ b.childDepth)
    (hs : 0 ≤ cfg.streamSize) (hc : 0 ≤ cfg.numConfirmations) :
    treeMaxNumber (flushFlushableBlocks cfg t).1 = treeMaxNumber t := by
  apply le_antisymm
  · apply treeMaxNumber_sublist
    rw [flushFlushableBlocks_fst hn]
    exact List.filter_sublist t
  · rcases eq_or_ne t [] with rfl | hne
    · rfl
    · rcases treeMaxNumber_mem hne hnum with ⟨x, hx, hmax⟩
      have hkeep : x ∈ (flushFlushableBlocks cfg t).1 := by
        rw [flushFlushableBlocks_fst hn, List.mem_filter]
        refine ⟨hx, ?_⟩
        unfold flushable
        have h1 := hcd x hx
        have h2 : ¬ (x.number < treeMaxNumber t - cfg.streamSize) := by omega
        have h3 : ¬ (x.number + x.childDepth <
            treeMaxNumber t - cfg.numConfirmations) := by omega
        simp [h2, h3]
      rw [← hmax]
      exact le_treeMaxNumber hkeep

theorem treeGet_flushFlushable (cfg : Config) {t : List Block} (hn : nodupKeys t)
    {h : String} {x : Block} (hget : treeGet t h = some x) :
    treeGet (flushFlushableBlocks cfg t).1 h =
      if flushable (treeMaxNumber t - cfg.streamSize)
          (treeMaxNumber t - cfg.numConfirmations) x then none else some x := by
  rw [flushFlushableBlocks_fst hn]
  rw [treeGet_filter _ hn hget]
  by_cases hf : flushable (treeMaxNumber t - cfg.streamSize)
      (treeMaxNumber t - cfg.numConfirmations) x = true
  · rw [if_pos hf]
    simp [hf]
  · rw [if_neg hf]
    simp only [Bool.not_eq_true] at hf
    simp [hf]

theorem treeGet_flushFlushable_none (cfg : Config) {t : List Block} {h : String}
    (hget : treeGet t h = none) :
    treeGet (flushFlushableBlocks cfg t).1 h = none := by
  unfold flushFlushableBlocks
  rw [flushLoop_fst]
  exact treeGet_filter_none _ hget

/-- A `confirm` event always carries the pre-update block record: its
`childDepth` is still strictly below `numConfirmations` (the walk emits the
confirmation before setting the new depth). -/
theorem walkAncestors_confirm_payload (numConf : Int) :
    ∀ (fuel : Nat) (t : List Block) (op : Option Block) (d : Int) (c : Block),
      Event.confirm c ∈ (walkAncestors numConf fuel t op d).2 →
      c.childDepth < numConf
  | 0, t, op, d, c, hc => by simp [walkAncestors] at hc
  | _ + 1, t, none, d, c, hc => by simp [walkAncestors] at hc
  | fuel + 1, t, some parent, d, c, hc => by
    rw [walkAncestors] at hc
    split at hc
    · next hguard =>
      simp only [List.mem_append] at hc
      rcases hc with hc | hc
      · split at hc
        · next hd =>
          have hcp : c = parent := by
            have := List.mem_singleton.mp hc
            injection this
          subst hcp
          omega
        · simp at hc
      · exact walkAncestors_confirm_payload numConf fuel _ _ _ c hc
    · simp at hc

theorem runOps_confirm_payload (cfg : Config) :
    ∀ (ops : List Op) (s : EngineState) (c : Block),
      Event.confirm c ∈ emittedEvents (runOps cfg s ops).2 →
      c.childDepth < cfg.numConfirmations
  | [], s, c, hc => by simp [runOps, emittedEvents] at hc
  | op :: rest, s, c, hc => by
    rw [runOps] at hc
    simp only at hc
    rw [emittedEvents_append, List.mem_append] at hc
    rcases hc with hc | hc
    · cases op with
      | restore snapshot =>
        rw [show (stepOp cfg s (Op.restore snapshot)).2 =
          snapshot.map LogEntry.restored from rfl, emittedEvents_restored] at hc
        simp at hc
      | insert b =>
        by_cases hhas : treeHas s.tree b.hash = true
        · rw [show (stepOp cfg s (Op.insert b)).2 = [] from by
            simp only [stepOp]; rw [if_pos hhas]] at hc
          simp [emittedEvents] at hc
        · rw [show (stepOp cfg s (Op.insert b)).2 =
              (insertBlock cfg s b).2.1.map LogEntry.ev from by
            simp only [stepOp]; rw [if_neg (by simp [Bool.eq_false_iff.mpr hhas])]] at hc
          rw [emittedEvents_ev] at hc
          rw [show (insertBlock cfg s b).2.1 =
            Event.add b :: ((walkAncestors cfg.numConfirmations
              (treeSet s.tree { b with childDepth := 0 }).length
              (treeSet s.tree { b with childDepth := 0 })
              (treeGet (treeSet s.tree { b with childDepth := 0 })
                ({ b with childDepth := 0 } : Block).parentHash) 1).2 ++
              (flushFlushableBlocks cfg (walkAncestors cfg.numConfirmations
                (treeSet s.tree { b with childDepth := 0 }).length
                (treeSet s.tree { b with childDepth := 0 })
                (treeGet (treeSet s.tree { b with childDepth := 0 })
                  ({ b with childDepth := 0 } : Block).parentHash) 1).1).2)
            from rfl] at hc
          rcases List.mem_cons.mp hc with hc | hc
          · exact absurd hc (by simp)
          · rcases List.mem_append.mp hc with hc | hc
            · exact walkAncestors_confirm_payload cfg.numConfirmations _ _ _ _ c hc
            · rcases flush_events_rollback cfg _ _ hc with ⟨y, hy⟩
              exact absurd hy (by simp)
    · exact runOps_confirm_payload cfg rest (stepOp cfg s op).1 c hc

theorem confirmCount_append (l1 l2 : List Event) (h : String) :
    confirmCount (l1 ++ l2) h = confirmCount l1 h + confirmCount l2 h := by
  unfold confirmCount
  rw [List.countP_append]

/-- The inductive invariant of an engine run for the at-most-once property of
`confirm`.  `U` is the universe of blocks the run mentions; `evs` the events
emitted so far. -/
structure EngineInv (cfg : Config) (U : List Block) (s : EngineState)
    (evs : List Event) : Prop where
  nodup : nodupKeys s.tree
  cdNonneg : ∀ x ∈ s.tree, 0 ≤ x.childDepth
  link : ∀ x ∈ s.tree, ∃ m ∈ U,
    m.hash = x.hash ∧ m.parentHash = x.parentHash ∧ m.number = x.number
  confFacts : ∀ h : String, 1 ≤ confirmCount evs h →
    ((∃ x, treeGet s.tree h = some x ∧ cfg.numConfirmations ≤ x.childDepth) ∨
      (treeGet s.tree h = none ∧ ∀ m ∈ U, m.hash = h →
        (m.number < treeMaxNumber s.tree - cfg.streamSize ∨
          m.number < treeMaxNumber s.tree - 2 * cfg.numConfirmations)))
  confOnce : ∀ h : String, confirmCount evs h ≤ 1

/-- The heart of claim C1: one drain-loop insertion preserves the
at-most-once invariant. -/
theorem insert_step_inv (cfg : Config) (U : List Block)
    (hcfg1 : 1 ≤ cfg.numConfirmations) (hcfg2 : 0 ≤ cfg.streamSize)
    (hU : ∀ m ∈ U, blockOk m = true)
    (hUpair : ∀ a ∈ U, ∀ c ∈ U, pairOk a c = true)
    (s : EngineState) (evs : List Event) (b : Block) (hb : b ∈ U)
    (hinv : EngineInv cfg U s evs) :
    EngineInv cfg U (stepOp cfg s (Op.insert b)).1
      (evs ++ emittedEvents (stepOp cfg s (Op.insert b)).2) := by
  by_cases hhas : treeHas s.tree b.hash = true
  · have hstep : stepOp cfg s (Op.insert b) = (s, []) := by
      simp only [stepOp]
      rw [if_pos hhas]
    rw [hstep]
    rw [show emittedEvents ([] : List LogEntry) = [] from rfl, List.append_nil]
    exact hinv
  · have hhasf : treeHas s.tree b.hash = false := Bool.eq_false_iff.mpr hhas
    have hstep : stepOp cfg s (Op.insert b) =
        ((insertBlock cfg s b).1, (insertBlock cfg s b).2.1.map LogEntry.ev) := by
      simp only [stepOp]
      rw [if_neg (by simp [hhasf])]
    rw [hstep]
    simp only
    rw [emittedEvents_ev]
    set b0 : Block := { b with childDepth := 0 } with hb0
    set t1 : List Block := treeSet s.tree b0 with ht1
    set wOut := walkAncestors cfg.numConfirmations t1.length t1
      (treeGet t1 b0.parentHash) 1 with hwOut
    set fOut := flushFlushableBlocks cfg wOut.1 with hfOut
    have hins1 : (insertBlock cfg s b).1.tree = fOut.1 := rfl
    have hins2 : (insertBlock cfg s b).2.1 = Event.add b :: (wOut.2 ++ fOut.2) := rfl
    have ht1app : t1 = s.tree ++ [b0] := by
      rw [ht1]
      apply treeSet_of_absent
      rw [← Bool.not_eq_true]
      intro hc
      rcases List.any_eq_true.mp hc with ⟨x, hx, hxb⟩
      rw [Bool.eq_false_iff] at hhasf
      exact hhasf (List.any_eq_true.mpr ⟨x, hx, by simpa using hxb⟩)
    have hgetb0 : treeGet t1 b0.hash = some b0 := treeGet_treeSet_self s.tree b0
    have hn1 : nodupKeys t1 := nodupKeys_treeSet hinv.nodup
    have hgetnone : treeGet s.tree b.hash = none := by
      rw [treeGet_eq_none_iff]
      exact treeHas_false_iff.mp hhasf
    have hget_t1 : ∀ (h : String), h ≠ b.hash → treeGet t1 h = treeGet s.tree h := by
      intro h hne
      rw [ht1]
      exact treeGet_treeSet_ne s.tree b0 hne
    have hlink1 : ∀ x ∈ t1, ∃ m ∈ U,
        m.hash = x.hash ∧ m.parentHash = x.parentHash ∧ m.number = x.number := by
      intro x hx
      rcases mem_treeSet hx with hmem | rfl
      · exact hinv.link x hmem
      · exact ⟨b, hb, rfl, rfl, rfl⟩
    have hnum1 : ∀ x ∈ t1, 0 ≤ x.number := by
      intro x hx
      rcases hlink1 x hx with ⟨m, hm, _, _, h3⟩
      have hok := hU m hm
      unfold blockOk at hok
      rw [Bool.and_eq_true] at hok
      have := of_decide_eq_true hok.1
      omega
    have hcd1 : ∀ x ∈ t1, 0 ≤ x.childDepth := by
      intro x hx
      rcases mem_treeSet hx with hmem | rfl
      · exact hinv.cdNonneg x hmem
      · exact le_refl 0
    have hUnum : ∀ m ∈ U, ∀ m2 ∈ U, m.hash = m2.hash → m.number = m2.number := by
      intro m hm m2 hm2 hh
      have hpair := hUpair m hm m2 hm2
      unfold pairOk at hpair
      rw [Bool.and_eq_true] at hpair
      have h1 := hpair.1
      rw [Bool.or_eq_true] at h1
      rcases h1 with h1 | h1
      · rw [bne_iff_ne] at h1
        exact absurd hh h1
      · exact of_decide_eq_true h1
    have hPC1 : ParentConsistent t1 := by
      intro p hp c hc hhash
      rcases hlink1 p hp with ⟨mp, hmp, e1, e2, e3⟩
      rcases hlink1 c hc with ⟨mc, hmc, f1, f2, f3⟩
      have hpair := hUpair mp hmp mc hmc
      unfold pairOk at hpair
      rw [Bool.and_eq_true] at hpair
      have h2 := hpair.2
      rw [Bool.or_eq_true] at h2
      rcases h2 with h2 | h2
      · exfalso
        rw [bne_iff_ne] at h2
        exact h2 (by rw [f2, ← hhash, e1])
      · have := of_decide_eq_true h2
        omega
    have hop : ∀ p, treeGet t1 b0.parentHash = some p → treeGet t1 p.hash = some p :=
      fun p hp => treeGet_self hp
    have hmemop : ∀ p, treeGet t1 b0.parentHash = some p → p ∈ t1 :=
      fun p hp => treeGet_mem hp
    have spec := walkAncestors_spec cfg.numConfirmations t1.length t1
      (treeGet t1 b0.parentHash) 1 hn1 hPC1 hop
    rw [← hwOut] at spec
    have hmap2 : wOut.1.map (fun x => x.hash) = t1.map (fun x => x.hash) := by
      rw [hwOut]
      exact walkAncestors_map_hash cfg.numConfirmations t1.length t1
        (treeGet t1 b0.parentHash) 1 hmemop
    have hmapnum2 : wOut.1.map (fun x => x.number) = t1.map (fun x => x.number) := by
      rw [hwOut]
      exact walkAncestors_map_number cfg.numConfirmations t1.length t1
        (treeGet t1 b0.parentHash) 1 hn1 hop
    have hn2 : nodupKeys wOut.1 := nodupKeys_congr hmap2.symm hn1
    have hlink2 : ∀ x ∈ wOut.1, ∃ m ∈ U,
        m.hash = x.hash ∧ m.parentHash = x.parentHash ∧ m.number = x.number := by
      intro x hx
      have hgx : treeGet wOut.1 x.hash = some x := mem_treeGet hn2 hx
      rcases spec.get x.hash x hgx with ⟨x1, hx1, e1, e2, e3, _⟩
      rcases hlink1 x1 (treeGet_mem hx1) with ⟨m, hm, f1, f2, f3⟩
      exact ⟨m, hm, by rw [f1, ← e1], by rw [f2, ← e2], by rw [f3, ← e3]⟩
    have hnum2 : ∀ x ∈ wOut.1, 0 ≤ x.number := by
      intro x hx
      rcases hlink2 x hx with ⟨m, hm, _, _, h3⟩
      have hok := hU m hm
      unfold blockOk at hok
      rw [Bool.and_eq_true] at hok
      have := of_decide_eq_true hok.1
      omega
    have hcd2 : ∀ x ∈ wOut.1, 0 ≤ x.childDepth := by
      intro x hx
      have hgx := mem_treeGet hn2 hx
      rcases spec.get x.hash x hgx with ⟨x1, hx1, _, _, _, e4⟩
      have := hcd1 x1 (treeGet_mem hx1)
      omega
    have hM1 : treeMaxNumber s.tree ≤ treeMaxNumber t1 := by
      rw [ht1app]
      exact treeMaxNumber_append_le s.tree b0
    have hM2 : treeMaxNumber wOut.1 = treeMaxNumber t1 := treeMaxNumber_congr hmapnum2
    have hM3 : treeMaxNumber fOut.1 = treeMaxNumber wOut.1 := by
      rw [hfOut]
      exact treeMaxNumber_flush cfg hn2 hnum2 hcd2 hcfg2 (by omega)
    have hn3 : nodupKeys fOut.1 := by
      rw [hfOut, flushFlushableBlocks_fst hn2]
      exact nodupKeys_filter _ hn2
    have hM0le : treeMaxNumber s.tree ≤ treeMaxNumber wOut.1 := by
      rw [hM2]
      exact hM1
    -- a confirm of this walk concerns a hash never confirmed before
    have hfresh : ∀ c, Event.confirm c ∈ wOut.2 → confirmCount evs c.hash = 0 := by
      intro c hc
      by_contra hcnt
      have hcnt1 : 1 ≤ confirmCount evs c.hash := by omega
      have hcget := (spec.confirms c hc).1
      have hccd := (spec.confirms c hc).2.1
      rcases hinv.confFacts c.hash hcnt1 with ⟨x, hx, hxcd⟩ | ⟨hnone, hbounds⟩
      · have hne : c.hash ≠ b.hash := by
          intro hcontra
          rw [hcontra, hgetnone] at hx
          exact absurd hx (by simp)
        rw [hget_t1 c.hash hne] at hcget
        have hxc : x = c := Option.some.inj (hx.symm.trans hcget)
        rw [hxc] at hxcd
        omega
      · by_cases hne : c.hash = b.hash
        · have hcb0 : c = b0 := by
            rw [hne] at hcget
            exact (Option.some.inj (hgetb0.symm.trans hcget)).symm
          rcases hop0 : treeGet t1 b0.parentHash with _ | p0
          · rw [hwOut, hop0, walkAncestors_none] at hc
            simp at hc
          · have h1 := spec.confirmNum c hc p0 hop0
            have h2 : p0.number < b0.number :=
              hPC1 p0 (treeGet_mem hop0) b0 (treeGet_mem hgetb0)
                (by rw [treeGet_hash hop0])
            rw [hcb0] at h1
            omega
        · rw [hget_t1 c.hash hne, hnone] at hcget
          exact absurd hcget (by simp)
    have hwcount : ∀ h : String, confirmCount wOut.2 h ≤ 1 := by
      intro h
      have hle : confirmCount wOut.2 h ≤ wOut.2.countP
          (fun e => match e with | Event.confirm _ => true | _ => false) := by
        apply List.countP_mono_left
        intro e _ hpred
        cases e <;> simp_all
      have hc := spec.count
      omega
    have hflushcount : ∀ h : String, confirmCount fOut.2 h = 0 := by
      intro h
      rw [confirmCount, List.countP_eq_zero]
      intro e he
      rcases flush_events_rollback cfg wOut.1 e he with ⟨y, rfl⟩
      simp
    have hstepcount : ∀ h : String,
        confirmCount (Event.add b :: (wOut.2 ++ fOut.2)) h = confirmCount wOut.2 h := by
      intro h
      rw [confirmCount, List.countP_cons, List.countP_append]
      have h2 := hflushcount h
      rw [confirmCount] at h2
      rw [h2]
      simp [confirmCount]
    rw [hins2]
    have hsub3 : ∀ x ∈ fOut.1, x ∈ wOut.1 := by
      intro x hx
      exact flush_fst_subset cfg wOut.1 x hx
    refine ⟨?_, ?_, ?_, ?_, ?_⟩
    · rw [hins1]
      exact hn3
    · intro x hx
      rw [hins1] at hx
      exact hcd2 x (hsub3 x hx)
    · intro x hx
      rw [hins1] at hx
      exact hlink2 x (hsub3 x hx)
    · -- the confirmation bookkeeping
      intro h hcount
      rw [confirmCount_append, hstepcount h] at hcount
      rw [hins1]
      by_cases hnew : 1 ≤ confirmCount wOut.2 h
      · obtain ⟨c, hcmem, hch⟩ : ∃ c, Event.confirm c ∈ wOut.2 ∧ c.hash = h := by
          have hpos' : 0 < wOut.2.countP
              (fun e => match e with | Event.confirm c => c.hash == h | _ => false) := by
            unfold confirmCount at hnew
            omega
          rcases List.countP_pos_iff.mp hpos' with ⟨e, he, hpe⟩
          cases e with
          | confirm c => exact ⟨c, he, by simpa using hpe⟩
          | add c => simp at hpe
          | rollback c => simp at hpe
        have hcspec := spec.confirms c hcmem
        have hget3 := treeGet_flushFlushable cfg hn2 hcspec.2.2
        by_cases hfl : flushable (treeMaxNumber wOut.1 - cfg.streamSize)
            (treeMaxNumber wOut.1 - cfg.numConfirmations)
            { c with childDepth := cfg.numConfirmations } = true
        · right
          constructor
          · rw [← hch, hget3, if_pos hfl]
          · intro m hm hmh
            have hmnum : m.number = c.number := by
              rcases hlink1 c (treeGet_mem hcspec.1) with ⟨mc, hmc, g1, g2, g3⟩
              have := hUnum m hm mc hmc (by rw [hmh, ← hch, g1])
              omega
            unfold flushable at hfl
            rw [Bool.or_eq_true] at hfl
            have hcn : ({ c with childDepth := cfg.numConfirmations } : Block).number
                = c.number := rfl
            have hcc : ({ c with childDepth := cfg.numConfirmations } : Block).childDepth
                = cfg.numConfirmations := rfl
            rcases hfl with hfl | hfl
            · left
              have := of_decide_eq_true hfl
              rw [hM3]
              omega
            · right
              have := of_decide_eq_true hfl
              rw [hM3]
              omega
        · left
          refine ⟨{ c with childDepth := cfg.numConfirmations }, ?_, le_refl _⟩
          rw [← hch, hget3, if_neg hfl]
      · have hold : 1 ≤ confirmCount evs h := by omega
        rcases hinv.confFacts h hold with ⟨x, hx, hxcd⟩ | ⟨hnone, hbounds⟩
        · have hne : h ≠ b.hash := by
            intro hcontra
            rw [hcontra, hgetnone] at hx
            exact absurd hx (by simp)
          have hx1 : treeGet t1 h = some x := by
            rw [hget_t1 h hne]
            exact hx
          obtain ⟨x2, hx2⟩ : ∃ x2, treeGet wOut.1 h = some x2 := by
            rcases hg : treeGet wOut.1 h with _ | x2
            · exfalso
              have hcontra := treeGet_none_congr hmap2 hg
              rw [hx1] at hcontra
              exact absurd hcontra (by simp)
            · exact ⟨x2, rfl⟩
          rcases spec.get h x2 hx2 with ⟨x1, hx1', _, _, _, e4⟩
          have hx1x : x1 = x := Option.some.inj (hx1'.symm.trans hx1)
          have hx2cd : cfg.numConfirmations ≤ x2.childDepth := by
            rw [hx1x] at e4
            omega
          have hget3 := treeGet_flushFlushable cfg hn2 hx2
          by_cases hfl : flushable (treeMaxNumber wOut.1 - cfg.streamSize)
              (treeMaxNumber wOut.1 - cfg.numConfirmations) x2 = true
          · right
            constructor
            · rw [hget3, if_pos hfl]
            · intro m hm hmh
              have hmnum : m.number = x2.number := by
                rcases hlink2 x2 (treeGet_mem hx2) with ⟨mc, hmc, g1, g2, g3⟩
                have := hUnum m hm mc hmc (by rw [hmh, g1, treeGet_hash hx2])
                omega
              unfold flushable at hfl
              rw [Bool.or_eq_true] at hfl
              rcases hfl with hfl | hfl
              · left
                have := of_decide_eq_true hfl
                rw [hM3]
                omega
              · right
                have := of_decide_eq_true hfl
                rw [hM3]
                omega
          · left
            exact ⟨x2, by rw [hget3, if_neg hfl], hx2cd⟩
        · by_cases hne : h = b.hash
          · subst hne
            have huntouched : treeGet wOut.1 b0.hash = some b0 := by
              apply spec.untouched b0.hash b0 hgetb0
              intro p hp
              exact hPC1 p (treeGet_mem hp) b0 (treeGet_mem hgetb0)
                (by rw [treeGet_hash hp])
            have hbb := hbounds b hb rfl
            have hb0n : b0.number = b.number := rfl
            have hb0c : b0.childDepth = 0 := rfl
            have hfl : flushable (treeMaxNumber wOut.1 - cfg.streamSize)
                (treeMaxNumber wOut.1 - cfg.numConfirmations) b0 = true := by
              unfold flushable
              rw [Bool.or_eq_true]
              rcases hbb with hbb | hbb
              · left
                rw [decide_eq_true_iff]
                omega
              · right
                rw [decide_eq_true_iff]
                omega
            right
            constructor
            · have hget3 : treeGet fOut.1 b.hash =
                  (if flushable (treeMaxNumber wOut.1 - cfg.streamSize)
                    (treeMaxNumber wOut.1 - cfg.numConfirmations) b0 = true
                   then none else some b0) :=
                treeGet_flushFlushable cfg hn2 huntouched
              rw [hget3, if_pos hfl]
            · intro m hm hmh
              have hmnum : m.number = b.number := hUnum m hm b hb hmh
              rcases hbb with hbb | hbb
              · left
                rw [hM3]
                omega
              · right
                rw [hM3]
                omega
          · have hx1 : treeGet t1 h = none := by
              rw [hget_t1 h hne]
              exact hnone
            have hx2 : treeGet wOut.1 h = none := treeGet_none_congr hmap2.symm hx1
            right
            constructor
            · exact treeGet_flushFlushable_none cfg hx2
            · intro m hm hmh
              rcases hbounds m hm hmh with h1 | h1
              · left
                rw [hM3]
                omega
              · right
                rw [hM3]
                omega
    · intro h
      rw [confirmCount_append, hstepcount h]
      by_cases hzero : confirmCount wOut.2 h = 0
      · rw [hzero]
        have := hinv.confOnce h
        omega
      · have hpos : 1 ≤ confirmCount wOut.2 h := by omega
        obtain ⟨c, hcmem, hch⟩ : ∃ c, Event.confirm c ∈ wOut.2 ∧ c.hash = h := by
          have hpos' : 0 < wOut.2.countP
              (fun e => match e with | Event.confirm c => c.hash == h | _ => false) := by
            unfold confirmCount at hpos
            omega
          rcases List.countP_pos_iff.mp hpos' with ⟨e, he, hpe⟩
          cases e with
          | confirm c => exact ⟨c, he, by simpa using hpe⟩
          | add c => simp at hpe
          | rollback c => simp at hpe
        have h0 := hfresh c hcmem
        rw [hch] at h0
        rw [h0]
        have := hwcount h
        omega

theorem nodupKeys_foldl_treeSet :
    ∀ (snapshot acc : List Block), nodupKeys acc →
      nodupKeys (snapshot.foldl treeSet acc)
  | [], _, hn => hn
  | b :: rest, acc, hn =>
    nodupKeys_foldl_treeSet rest (treeSet acc b) (nodupKeys_treeSet hn)

theorem initial_inv (cfg : Config) (U : List Block) :
    EngineInv cfg U initialState [] := by
  refine ⟨?_, ?_, ?_, ?_, ?_⟩
  · show nodupKeys ([] : List Block)
    simp [nodupKeys]
  · intro x hx
    exact absurd hx (List.not_mem_nil x)
  · intro x hx
    exact absurd hx (List.not_mem_nil x)
  · intro h hc
    rw [show confirmCount [] h = 0 from rfl] at hc
    omega
  · intro h
    rw [show confirmCount [] h = 0 from rfl]
    omega

theorem restore_initial_inv (cfg : Config) (U : List Block)
    (hU : ∀ m ∈ U, blockOk m = true)
    (snapshot : List Block) (hsnap : ∀ x ∈ snapshot, x ∈ U) :
    EngineInv cfg U (stepOp cfg initialState (Op.restore snapshot)).1 [] := by
  have htree : (stepOp cfg initialState (Op.restore snapshot)).1.tree =
      snapshot.foldl treeSet [] := by
    show (restoreFromSnapshot initialState snapshot).tree = _
    rw [restoreFromSnapshot_tree]
    rfl
  refine ⟨?_, ?_, ?_, ?_, ?_⟩
  · rw [htree]
    exact nodupKeys_foldl_treeSet snapshot [] (by simp [nodupKeys])
  · intro x hx
    rw [htree] at hx
    rcases mem_foldl_treeSet snapshot [] x hx with hmem | hmem
    · simp at hmem
    · have hok := hU x (hsnap x hmem)
      unfold blockOk at hok
      rw [Bool.and_eq_true] at hok
      exact of_decide_eq_true hok.2
  · intro x hx
    rw [htree] at hx
    rcases mem_foldl_treeSet snapshot [] x hx with hmem | hmem
    · simp at hmem
    · exact ⟨x, hsnap x hmem, rfl, rfl, rfl⟩
  · intro h hc
    rw [show confirmCount [] h = 0 from rfl] at hc
    omega
  · intro h
    rw [show confirmCount [] h = 0 from rfl]
    omega

theorem runOps_inv (cfg : Config) (U : List Block)
    (hcfg1 : 1 ≤ cfg.numConfirmations) (hcfg2 : 0 ≤ cfg.streamSize)
    (hU : ∀ m ∈ U, blockOk m = true)
    (hUpair : ∀ a ∈ U, ∀ c ∈ U, pairOk a c = true) :
    ∀ (ops : List Op) (s : EngineState) (evs : List Event),
      noRestore ops = true →
      (∀ b, Op.insert b ∈ ops → b ∈ U) →
      EngineInv cfg U s evs →
      EngineInv cfg U (runOps cfg s ops).1
        (evs ++ emittedEvents (runOps cfg s ops).2)
  | [], s, evs, _, _, hinv => by
    rw [runOps]
    rw [show emittedEvents ([] : List LogEntry) = [] from rfl, List.append_nil]
    exact hinv
  | op :: rest, s, evs, hnr, hmem, hinv => by
    cases op with
    | restore snapshot =>
      exfalso
      unfold noRestore at hnr
      rw [List.all_cons] at hnr
      simp at hnr
    | insert b =>
      rw [runOps]
      simp only
      rw [emittedEvents_append]
      have hnr' : noRestore rest = true := by
        unfold noRestore at hnr ⊢
        rw [List.all_cons, Bool.and_eq_true] at hnr
        exact hnr.2
      have hstep := insert_step_inv cfg U hcfg1 hcfg2 hU hUpair s evs b
        (hmem b (List.mem_cons_self _ _)) hinv
      have hrec := runOps_inv cfg U hcfg1 hcfg2 hU hUpair rest
        (stepOp cfg s (Op.insert b)).1
        (evs ++ emittedEvents (stepOp cfg s (Op.insert b)).2) hnr'
        (fun b2 hb2 => hmem b2 (List.mem_cons_of_mem _ hb2)) hstep
      rw [← List.append_assoc]
      exact hrec

theorem mem_mentioned_insert :
    ∀ (ops : List Op) (b : Block), Op.insert b ∈ ops → b ∈ mentionedBlocks ops
  | [], b, hb => absurd hb (List.not_mem_nil _)
  | Op.insert c :: rest, b, hb => by
    rcases List.mem_cons.mp hb with heq | hmem
    · have hbc : b = c := by injection heq
      subst hbc
      exact List.mem_cons_self _ _
    · exact List.mem_cons_of_mem _ (mem_mentioned_insert rest b hmem)
  | Op.restore snapshot :: rest, b, hb => by
    rcases List.mem_cons.mp hb with heq | hmem
    · exact absurd heq (by simp)
    · show b ∈ snapshot ++ mentionedBlocks rest
      exact List.mem_append.mpr (Or.inr (mem_mentioned_insert rest b hmem))

/-- C1, amended. The claim fails as stated (see the counterexample: a
mid-life `restoreFromSnapshot` can reset a confirmed block's `childDepth`
and enable a second confirmation). For every well-formed run — positive
`numConfirmations`, non-negative `streamSize`, at most an initial `restore`,
and honest blocks (non-negative numbers and depths, hash-determined numbers,
parents with strictly smaller numbers) — `confirm` is emitted at most once
per hash across the engine's lifetime, and every `confirm` is emitted on the
ancestor-walk step at which the block's `childDepth` would first reach
`numConfirmations`, before the update: its payload still carries
`childDepth < numConfirmations`. -/
theorem confirm_emitted_once (cfg : Config) (ops : List Op)
    (hwf : wellFormedOps cfg ops = true) :
    (∀ h : String,
      confirmCount (emittedEvents (runOps cfg initialState ops).2) h ≤ 1) ∧
    (∀ c, Event.confirm c ∈ emittedEvents (runOps cfg initialState ops).2 →
      c.childDepth < cfg.numConfirmations) := by
  constructor
  · unfold wellFormedOps at hwf
    rw [Bool.and_eq_true, Bool.and_eq_true, Bool.and_eq_true, Bool.and_eq_true] at hwf
    obtain ⟨⟨⟨⟨h1, h2⟩, h3⟩, h4⟩, h5⟩ := hwf
    have hcfg1 : 1 ≤ cfg.numConfirmations := of_decide_eq_true h1
    have hcfg2 : 0 ≤ cfg.streamSize := of_decide_eq_true h2
    intro h
    cases ops with
    | nil =>
      rw [show confirmCount (emittedEvents (runOps cfg initialState []).2) h = 0
        from rfl]
      omega
    | cons op rest =>
      have hU : ∀ m ∈ mentionedBlocks (op :: rest), blockOk m = true :=
        fun m hm => List.all_eq_true.mp h4 m hm
      have hUpair : ∀ a ∈ mentionedBlocks (op :: rest),
          ∀ c ∈ mentionedBlocks (op :: rest), pairOk a c = true :=
        fun a ha c hc => List.all_eq_true.mp (List.all_eq_true.mp h5 a ha) c hc
      have hnr : noRestore rest = true := h3
      cases op with
      | insert b =>
        have hnrall : noRestore (Op.insert b :: rest) = true := by
          unfold noRestore at hnr ⊢
          rw [List.all_cons]
          rw [hnr]
          rfl
        have hmemU : ∀ b2, Op.insert b2 ∈ (Op.insert b :: rest) →
            b2 ∈ mentionedBlocks (Op.insert b :: rest) :=
          fun b2 hb2 => mem_mentioned_insert _ b2 hb2
        have hfin := runOps_inv cfg (mentionedBlocks (Op.insert b :: rest))
          hcfg1 hcfg2 hU hUpair (Op.insert b :: rest) initialState [] hnrall hmemU
          (initial_inv cfg _)
        have := hfin.confOnce h
        simpa using this
      | restore snapshot =>
        rw [runOps]
        simp only
        rw [emittedEvents_append]
        rw [show emittedEvents ((stepOp cfg initialState (Op.restore snapshot)).2) = []
          from emittedEvents_restored snapshot]
        rw [List.nil_append]
        have hsnapU : ∀ x ∈ snapshot, x ∈ mentionedBlocks (Op.restore snapshot :: rest) := by
          intro x hx
          show x ∈ snapshot ++ mentionedBlocks rest
          exact List.mem_append.mpr (Or.inl hx)
        have hinv0 := restore_initial_inv cfg
          (mentionedBlocks (Op.restore snapshot :: rest)) hU snapshot hsnapU
        have hmemU : ∀ b2, Op.insert b2 ∈ rest →
            b2 ∈ mentionedBlocks (Op.restore snapshot :: rest) := by
          intro b2 hb2
          show b2 ∈ snapshot ++ mentionedBlocks rest
          exact List.mem_append.mpr (Or.inr (mem_mentioned_insert rest b2 hb2))
        have hfin := runOps_inv cfg (mentionedBlocks (Op.restore snapshot :: rest))
          hcfg1 hcfg2 hU hUpair rest
          (stepOp cfg initialState (Op.restore snapshot)).1 [] hnr hmemU hinv0
        have := hfin.confOnce h
        simpa using this
  · intro c hc
    exact runOps_confirm_payload cfg ops initialState c hc

theorem confirm_emitted_once_witness :
    wellFormedOps cfg1 [Op.insert blkA1, Op.insert blkB1, Op.insert blkC1] = true ∧
    confirmCount (emittedEvents (runOps cfg1 initialState
      [Op.insert blkA1, Op.insert blkB1, Op.insert blkC1]).2) "a" ≤ 1 :=
  ⟨by decide,
    (confirm_emitted_once cfg1 [Op.insert blkA1, Op.insert blkB1, Op.insert blkC1]
      (by decide)).1 "a"⟩

end Ethstream
